import Mathlib

/-!
# Verification model of `viewer.py` (offline page mirror)

A shallow embedding of the snapshot pipeline of `viewer.py`:
URL parsing (the fragment of `urllib.parse.urlparse` / `urljoin` the
program exercises), the URL→local-path mapper `safe_path_for_url`,
CSS reference extraction (`extract_urls_from_css`), HTML asset
extraction (`extract_asset_urls`), the document rewriter
(`rewrite_html_to_local`), and the fetch cycle
(`download_file` / `fetch_snapshot`).

Modelling conventions:
* Strings are processed as `List Char`; `String` wrappers sit at the API.
* Python `pathlib.PurePosixPath` values are lists of non-empty segments
  (parsing drops empty and `"."` segments, keeps `".."`).
* File bytes are modelled as `String` (the program compares bytes only
  for equality, and decodes CSS as UTF-8 text); the filesystem is an
  association list from path (segment list) to contents.
* HTML documents (the output of BeautifulSoup parsing, which is an
  external library) are modelled structurally as a list of elements in
  document order, each with a tag, an attribute list, and optional
  inline text (the `.string` of a `<style>` block); `str(soup)` is
  modelled by an injective serializer.  Inserting the `<base>` element
  as first child of `<head>` is modelled as prepending it.
* The network is a function `String → Option String`: `none` models any
  `requests` exception (network error or `raise_for_status`).
* `urlsplit`'s sanitisation (leading C0-control/space strip and removal
  of tab/CR/LF) is included; its bracketed-IPv6 validation errors and
  byte/str coercions are not (no claim exercises them).
-/

namespace Viewer

/-! ## Character classes (as used by `urllib.parse`) -/

/-- Characters allowed in a URL scheme (`scheme_chars` in `urllib.parse`). -/
def schemeChar (c : Char) : Bool :=
  c.isAlpha || c.isDigit || c == '+' || c == '-' || c == '.'

/-- WHATWG C0 control or space: stripped from the start of a URL by `urlsplit`. -/
def c0OrSpace (c : Char) : Bool :=
  c.toNat ≤ 0x20

/-- Tab, CR and LF are removed from anywhere in a URL by `urlsplit`. -/
def unsafeUrlChar (c : Char) : Bool :=
  c == '\t' || c == '\r' || c == '\n'

/-- Python `str.strip()` whitespace, restricted to ASCII
(`' '`, `\t`, `\n`, `\r`, `\x0b`, `\x0c`). -/
def pyWs (c : Char) : Bool :=
  c == ' ' || c == '\t' || c == '\n' || c == '\r' ||
    c == Char.ofNat 0x0b || c == Char.ofNat 0x0c

/-! ## List-of-char helpers -/

/-- Split at the first occurrence of `c`: `some (before, after)` with the
occurrence removed, or `none` when `c` does not occur
(models `str.find` + slicing / `str.split(c, 1)`). -/
def splitOnceC (c : Char) : List Char → Option (List Char × List Char)
  | [] => none
  | x :: xs =>
    if x = c then some ([], xs)
    else
      match splitOnceC c xs with
      | some (a, b) => some (x :: a, b)
      | none => none

/-- Split on every occurrence of `c` (models Python `str.split(c)`:
a list of (possibly empty) chunks, one more than the number of occurrences). -/
def splitAllC (c : Char) : List Char → List (List Char)
  | [] => [[]]
  | x :: xs =>
    if x = c then [] :: splitAllC c xs
    else
      match splitAllC c xs with
      | [] => [[x]]
      | a :: rest => (x :: a) :: rest

/-- Join chunks with `c` between them (models `c.join(chunks)`). -/
def joinC (c : Char) : List (List Char) → List Char
  | [] => []
  | [s] => s
  | s :: rest => s ++ c :: joinC c rest

@[simp] theorem splitAllC_ne_nil (c : Char) (l : List Char) : splitAllC c l ≠ [] := by
  induction l with
  | nil => simp [splitAllC]
  | cons x xs ih =>
    simp only [splitAllC]
    split
    · simp
    · cases h : splitAllC c xs with
      | nil => simp
      | cons a rest => simp

/-! ## `urlsplit` / `urlparse` model -/

/-- The 6-tuple produced by `urllib.parse.urlparse`. -/
structure URLParts where
  scheme : List Char
  netloc : List Char
  path : List Char
  params : List Char
  query : List Char
  fragment : List Char
deriving DecidableEq, Repr

/-- Scheme recognition step of `urlsplit`: if the URL starts with an ASCII
letter and the text before the first `:` consists of scheme characters,
that text (lowercased) is the scheme and is stripped; otherwise the default
scheme is kept and the URL is unchanged. -/
def schemeSplit (dflt : List Char) (url : List Char) : List Char × List Char :=
  if (url.head?.getD '/').isAlpha then
    match splitOnceC ':' url with
    | some (pre, post) =>
      if pre ≠ [] ∧ pre.all schemeChar then (pre.map Char.toLower, post)
      else (dflt, url)
    | none => (dflt, url)
  else (dflt, url)

/-- A character that does not end a netloc. -/
def nonDelim (c : Char) : Bool :=
  !(c == '/' || c == '?' || c == '#')

/-- Netloc step of `urlsplit`: when the (scheme-stripped) URL starts with
`//`, the netloc extends to the next `/`, `?` or `#`. -/
def netlocSplit (url : List Char) : List Char × List Char :=
  if url.take 2 = ['/', '/'] then
    ((url.drop 2).takeWhile nonDelim, (url.drop 2).dropWhile nonDelim)
  else ([], url)

/-- `_splitparams`: split `;params` off the portion of the path after the
last `/` (or off the whole path when it has no `/`). -/
def splitParamsC (l : List Char) : List Char × List Char :=
  if ';' ∈ l then
    if '/' ∈ l then
      let suf := (l.reverse.takeWhile (· ≠ '/')).reverse
      let pre := l.take (l.length - suf.length)
      match splitOnceC ';' suf with
      | some (a, b) => (pre ++ a, b)
      | none => (l, [])
    else
      match splitOnceC ';' l with
      | some (a, b) => (a, b)
      | none => (l, [])
  else (l, [])

/-- The splitting core of `urlparse` (after input sanitisation):
split off scheme, netloc, fragment, query and params. -/
def urlparseCore (dflt : List Char) (url : List Char) : URLParts :=
  let s := schemeSplit dflt url
  let n := netlocSplit s.2
  let f :=
    match splitOnceC '#' n.2 with
    | some (a, b) => (a, b)
    | none => (n.2, [])
  let qu :=
    match splitOnceC '?' f.1 with
    | some (a, b) => (a, b)
    | none => (f.1, [])
  let pp := splitParamsC qu.1
  ⟨s.1, n.1, pp.1, pp.2, qu.2, f.2⟩

/-- Model of `urllib.parse.urlparse(url, scheme=dflt, allow_fragments=True)`:
sanitise (strip leading C0-control/space, remove tab/CR/LF), then split. -/
def urlparseC (dflt : List Char) (url : List Char) : URLParts :=
  urlparseCore dflt ((url.dropWhile c0OrSpace).filter (fun c => !unsafeUrlChar c))

/-- `urlparse` on a `String`, with default scheme `""`
(as called by `safe_path_for_url`). -/
def urlparseS (url : String) : URLParts :=
  urlparseC [] url.data

/-- The scheme of a URL as `urlparse` reports it (lowercased). -/
def urlScheme (url : String) : String :=
  String.mk (urlparseS url).scheme

/-! ## `pathlib.PurePosixPath` model

A relative POSIX path is the list of its `parts`: parsing a string splits
on `/` and drops empty and `"."` segments (`".."` is kept, never resolved).
-/

/-- Parse a string as the parts of a relative `PurePosixPath`. -/
def pathSegsC (l : List Char) : List (List Char) :=
  (splitAllC '/' l).filter (fun s => s ≠ [] ∧ s ≠ ['.'])

/-- `PurePath.suffix ≠ ''`: the name has a `.` that is neither its first
nor its last character, taking the last `.` (`0 < name.rfind('.') < len(name)-1`). -/
def hasSuffixC (n : List Char) : Bool :=
  let r := n.reverse
  let after := r.takeWhile (· ≠ '.')
  if after.length = r.length then false
  else decide (after ≠ [] ∧ r.drop (after.length + 1) ≠ [])

/-- `PurePath.suffix`: the final `.`-extension including the dot, or `[]`. -/
def suffixC (n : List Char) : List Char :=
  if hasSuffixC n then '.' :: (n.reverse.takeWhile (· ≠ '.')).reverse
  else []

/-- The chars of `"index.html"`. -/
def indexHtmlC : List Char := "index.html".data

/-- Final-segment fixups of `safe_path_for_url`: an empty path becomes
`index.html`; a final segment with no extension gets `.html` appended
(`Path.with_suffix` with an empty old suffix). -/
def finalizeC (segs : List (List Char)) : List (List Char) :=
  let segs := if segs = [] then [indexHtmlC] else segs
  match segs.getLast? with
  | some s => if hasSuffixC s then segs else segs.dropLast ++ [s ++ ".html".data]
  | none => segs

/-- The relative path (list of segments) that `safe_path_for_url` puts the
URL at below the cache root: parse the URL, form
`Path(netloc) / path.lstrip('/')`, drop the first component
(`Path(*rel.parts[1:])`), then apply the final-segment fixups. -/
def safeRelC (url : List Char) : List (List Char) :=
  let p := urlparseC [] url
  let rel := pathSegsC p.netloc ++ pathSegsC (p.path.dropWhile (· = '/'))
  finalizeC (rel.drop 1)

/-- String-level form of `safeRelC`. -/
def safeRel (url : String) : List String :=
  (safeRelC url.data).map String.mk

/-- Model of `safe_path_for_url(url, cache_root)`: the local path, as the
cache root's segments followed by the URL's relative segments.  (The
`mkdir(parents=True)` side effect creates directories only and does not
affect the returned path.) -/
def safe_path_for_url (url : String) (cacheRoot : List String) : List String :=
  cacheRoot ++ safeRel url

/-- Lexical escape check for a relative segment list: walking the segments,
does some `..` step above the starting directory?  (`.` never occurs in
mapper output; `..` pops one level.) -/
def escapesFrom (depth : Nat) : List String → Bool
  | [] => false
  | s :: rest =>
    if s = ".." then
      match depth with
      | 0 => true
      | d + 1 => escapesFrom d rest
    else escapesFrom (depth + 1) rest

/-- A relative path stays inside the directory it is joined to iff no
prefix of it has more `..` segments than preceding normal segments. -/
def escapesRoot (segs : List String) : Bool :=
  escapesFrom 0 segs

/-! ## `urljoin` model -/

/-- `urllib.parse.uses_relative`. -/
def usesRelative : List (List Char) :=
  ["", "ftp", "http", "gopher", "nntp", "imap", "wais", "file", "https",
   "shttp", "mms", "prospero", "rtsp", "rtspu", "sftp", "svn", "svn+ssh",
   "ws", "wss"].map String.data

/-- `urllib.parse.uses_netloc`. -/
def usesNetloc : List (List Char) :=
  ["", "ftp", "http", "gopher", "nntp", "telnet", "imap", "wais", "file",
   "mms", "https", "shttp", "snews", "prospero", "rtsp", "rtspu", "rsync",
   "svn", "svn+ssh", "sftp", "nfs", "git", "git+ssh", "ws", "wss"].map
    String.data

/-- `urlunsplit`: reassemble scheme, netloc, path, query and fragment. -/
def urlunsplitC (scheme netloc url query fragment : List Char) : List Char :=
  let url :=
    if netloc ≠ [] ∨ url.take 2 = ['/', '/'] then
      let url := if url ≠ [] ∧ url.head? ≠ some '/' then '/' :: url else url
      '/' :: '/' :: netloc ++ url
    else url
  let url := if scheme ≠ [] then scheme ++ ':' :: url else url
  let url := if query ≠ [] then url ++ '?' :: query else url
  if fragment ≠ [] then url ++ '#' :: fragment else url

/-- `urlunparse`: re-attach `;params` to the path, then `urlunsplit`. -/
def urlunparseC (u : URLParts) : List Char :=
  let url := if u.params ≠ [] then u.path ++ ';' :: u.params else u.path
  urlunsplitC u.scheme u.netloc url u.query u.fragment

/-- `segments[1:-1] = filter(None, segments[1:-1])`: drop empty chunks,
keeping the first and last chunks whatever they are. -/
def filterMiddle : List (List Char) → List (List Char)
  | [] => []
  | [x] => [x]
  | x :: rest => x :: filterMiddleTail rest
where
  filterMiddleTail : List (List Char) → List (List Char)
    | [] => []
    | [y] => [y]
    | y :: ys => if y = [] then filterMiddleTail ys else y :: filterMiddleTail ys

/-- The dot-segment resolution loop of `urljoin`: `..` pops the last
resolved segment (silently when there is none), `.` is skipped. -/
def resolveSegs (segs : List (List Char)) : List (List Char) :=
  segs.foldl
    (fun acc seg =>
      if seg = ['.', '.'] then acc.dropLast
      else if seg = ['.'] then acc
      else acc ++ [seg])
    []

/-- Model of `urllib.parse.urljoin(base, url)`. -/
def urljoinC (base url : List Char) : List Char :=
  if base = [] then url
  else if url = [] then base
  else
    let b := urlparseC [] base
    let u := urlparseC b.scheme url
    if ¬(u.scheme = b.scheme ∧ u.scheme ∈ usesRelative) then url
    else if u.scheme ∈ usesNetloc ∧ u.netloc ≠ [] then
      urlunparseC u
    else
      let netloc := if u.scheme ∈ usesNetloc then b.netloc else u.netloc
      if u.path = [] ∧ u.params = [] then
        let query := if u.query = [] then b.query else u.query
        urlunparseC ⟨u.scheme, netloc, b.path, b.params, query, u.fragment⟩
      else
        let baseParts := splitAllC '/' b.path
        let baseParts :=
          if baseParts.getLast? ≠ some [] then baseParts.dropLast else baseParts
        let segments :=
          if u.path.head? = some '/' then splitAllC '/' u.path
          else filterMiddle (baseParts ++ splitAllC '/' u.path)
        let resolved := resolveSegs segments
        let resolved :=
          if segments.getLast? = some ['.'] ∨ segments.getLast? = some ['.', '.']
          then resolved ++ [[]] else resolved
        let path := if joinC '/' resolved = [] then ['/'] else joinC '/' resolved
        urlunparseC ⟨u.scheme, netloc, path, u.params, u.query, u.fragment⟩

/-- `urljoin` on `String`s. -/
def urljoin (base url : String) : String :=
  String.mk (urljoinC base.data url.data)

/-! ## CSS reference scanning

`CSS_URL_RE = url\(([^)]+)\)` and the `@import` pattern
`@import\s+(?:url\()?['"]([^'"]+)['"]\)?` are scanned left to right,
non-overlapping, continuing after each match and advancing one character
after each failed position, exactly as `re.finditer`/`re.findall` do.
The matchers recurse on strict suffixes; `fuel` (initialised to the text
length plus one, which every call strictly decreases below) makes the
recursion structural. -/

/-- All groups matched by `url\(([^)]+)\)` in scan order. -/
def cssUrlMatches (fuel : Nat) (l : List Char) : List (List Char) :=
  match fuel, l with
  | 0, _ => []
  | _, [] => []
  | fuel + 1, c :: rest =>
    if (c :: rest).take 4 = "url(".data then
      let body := (c :: rest).drop 4
      let inner := body.takeWhile (· ≠ ')')
      match body.dropWhile (· ≠ ')') with
      | ')' :: tail =>
        if inner ≠ [] then inner :: cssUrlMatches fuel tail
        else cssUrlMatches fuel rest
      | _ => cssUrlMatches fuel rest
    else cssUrlMatches fuel rest

/-- All groups matched by `@import\s+(?:url\()?['"]([^'"]+)['"]\)?`
in scan order. -/
def importMatches (fuel : Nat) (l : List Char) : List (List Char) :=
  match fuel, l with
  | 0, _ => []
  | _, [] => []
  | fuel + 1, c :: rest =>
    if (c :: rest).take 7 = "@import".data then
      let t := (c :: rest).drop 7
      if t.takeWhile pyWs = [] then importMatches fuel rest
      else
        let t := t.dropWhile pyWs
        let t := if t.take 4 = "url(".data then t.drop 4 else t
        match t with
        | q :: t2 =>
          if q = '\'' ∨ q = '"' then
            let inner := t2.takeWhile (fun c => !(c == '\'' || c == '"'))
            match t2.dropWhile (fun c => !(c == '\'' || c == '"')) with
            | _ :: tail =>
              if inner ≠ [] then
                inner :: importMatches fuel (if tail.take 1 = [')'] then tail.drop 1 else tail)
              else importMatches fuel rest
            | [] => importMatches fuel rest
          else importMatches fuel rest
        | [] => importMatches fuel rest
    else importMatches fuel rest

/-- Python `str.strip()` (ASCII whitespace). -/
def pyStrip (l : List Char) : List Char :=
  ((l.dropWhile pyWs).reverse.dropWhile pyWs).reverse

/-- Python `str.strip("\"'")`. -/
def stripQuotes (l : List Char) : List Char :=
  let quote : Char → Bool := fun c => c == '"' || c == '\''
  ((l.dropWhile quote).reverse.dropWhile quote).reverse

/-- Does the text start with the literal (lowercase) `data:`?
(`str.startswith("data:")`). -/
def startsWithData (l : List Char) : Bool :=
  l.take 5 = "data:".data

/-- Model of `extract_urls_from_css(base_url, css_text)`: clean each
`url(...)` group with `strip().strip("\"'")`, drop `data:`-prefixed
references, resolve the rest against the base; then the same for
`@import` groups (not cleaned — the regex group is already quote-free).
The Python function returns a `set`; the list here carries the members
(claims about the set go through `List.toFinset` / membership). -/
def extract_urls_from_css (base css : String) : List String :=
  let n := css.data.length + 1
  ((cssUrlMatches n css.data).map (fun m => stripQuotes (pyStrip m))).filterMap
      (fun raw =>
        if startsWithData raw then none
        else some (urljoin base (String.mk raw)))
    ++ (importMatches n css.data).filterMap
      (fun raw =>
        if startsWithData raw then none
        else some (urljoin base (String.mk raw)))

/-! ## HTML documents

BeautifulSoup (an external library) parses HTML into a tree; the program
only ever iterates `find_all(tag)` in document order, reads/writes one
attribute, reads `style.string`, checks for a `base` element, and inserts
one element.  The model is the list of elements in document order. -/

/-- One HTML element: tag name, attributes, and the `.string` contents
(for `<style>` blocks; `none` models a missing/compound `.string`). -/
structure HtmlEl where
  tag : String
  attrs : List (String × String)
  text : Option String
deriving DecidableEq, Repr

/-- `el.get(a)`: the value of attribute `a`, if present. -/
def getAttr (el : HtmlEl) (a : String) : Option String :=
  (el.attrs.find? (fun p => p.1 == a)).map Prod.snd

/-- `el[a] = v`: replace the value of attribute `a` (attributes are a
dict in BeautifulSoup, so the key occurs at most once). -/
def setAttr (el : HtmlEl) (a v : String) : HtmlEl :=
  { el with attrs := el.attrs.map (fun p => if p.1 = a then (p.1, v) else p) }

/-- The attribute values scanned by the `(tag, attr)` loop of
`extract_asset_urls` / `rewrite_html_to_local`: value of `a` on each
element with tag `t`, skipping missing and empty values (`if not u`). -/
def refsFor (doc : List HtmlEl) (t a : String) : List String :=
  doc.filterMap (fun el =>
    if el.tag = t then
      match getAttr el a with
      | some u => if u = "" then none else some u
      | none => none
    else none)

/-- The asset URLs collected by `extract_asset_urls(base_url, html)`, as a
list: `link[href]`, `script[src]`, `img[src]` resolved against the base,
then CSS extraction over each inline `<style>`'s string (skipped when
falsy). -/
def extractAssetList (base : String) (doc : List HtmlEl) : List String :=
  ((refsFor doc "link" "href" ++ refsFor doc "script" "src"
      ++ refsFor doc "img" "src").map (fun u => urljoin base u))
    ++ (doc.filterMap (fun el => if el.tag = "style" then el.text else none)).flatMap
      (fun s => if s = "" then [] else extract_urls_from_css base s)

/-- Model of `extract_asset_urls(base_url, html) -> set[str]`. -/
def extract_asset_urls (base : String) (doc : List HtmlEl) : Finset String :=
  (extractAssetList base doc).toFinset

/-! ## Document rewriting -/

/-- `to_rel`: the local path relative to the cache root, as an
absolute-from-root URL path (`"/" + p.relative_to(cache_root).as_posix()`). -/
def toRel (cacheRoot : List String) (p : List String) : String :=
  String.mk ('/' :: joinC '/' ((p.drop cacheRoot.length).map String.data))

/-- One `(tag, attr)` rewriting rule of `rewrite_html_to_local`: resolve
the attribute against the base URL, map through the Path Mapper, point the
attribute at the local server path. -/
def rewriteOne (base : String) (cacheRoot : List String) (t a : String)
    (el : HtmlEl) : HtmlEl :=
  if el.tag = t then
    match getAttr el a with
    | some u =>
      if u = "" then el
      else setAttr el a (toRel cacheRoot (safe_path_for_url (urljoin base u) cacheRoot))
    | none => el
  else el

/-- All three rewriting rules applied to one element (an element's tag
matches at most one rule). -/
def rewriteEl (base : String) (cacheRoot : List String) (el : HtmlEl) : HtmlEl :=
  rewriteOne base cacheRoot "img" "src"
    (rewriteOne base cacheRoot "script" "src"
      (rewriteOne base cacheRoot "link" "href" el))

/-- The `<base href="/">` element inserted by the rewriter. -/
def baseEl : HtmlEl := ⟨"base", [("href", "/")], none⟩

/-- Model of `rewrite_html_to_local(html, base_url, cache_root)`: rewrite
every `link[href]`, `script[src]`, `img[src]`, then insert a
`<base href="/">` when the document has none (as first child of `<head>`,
modelled as prepending). -/
def rewrite_html_to_local (base : String) (cacheRoot : List String)
    (doc : List HtmlEl) : List HtmlEl :=
  let doc := doc.map (rewriteEl base cacheRoot)
  if doc.any (fun el => el.tag == "base") then doc else baseEl :: doc

/-- Serialization of the rewritten document (`str(soup)` followed by
UTF-8 encoding); an injective rendering, so byte comparison of persisted
documents is modelled by comparison of these strings. -/
def serializeEl (el : HtmlEl) : String :=
  "<" ++ el.tag
    ++ String.join (el.attrs.map (fun p => " " ++ p.1 ++ "=\"" ++ p.2 ++ "\""))
    ++ ">" ++ (el.text.getD "") ++ "</" ++ el.tag ++ ">"

/-- Serialize a whole document. -/
def serializeDoc (doc : List HtmlEl) : String :=
  String.join (doc.map serializeEl)

/-! ## Filesystem, `download_file` and `fetch_snapshot` -/

/-- A local path: list of segments. -/
abbrev LPath := List String

/-- The cache filesystem: contents (bytes, modelled as `String`) per path. -/
abbrev FS := List (LPath × String)

/-- Read a file (`read_bytes` / `read_text`); `none` when absent
(`dest.exists()` is `(fsRead fs p).isSome`). -/
def fsRead (fs : FS) (p : LPath) : Option String :=
  (fs.find? (fun e => e.1 == p)).map Prod.snd

/-- Write a file, replacing previous contents. -/
def fsWrite (fs : FS) (p : LPath) (content : String) : FS :=
  if (fs.find? (fun e => e.1 == p)).isSome then
    fs.map (fun e => if e.1 = p then (e.1, content) else e)
  else (p, content) :: fs

/-- The network: a response body per URL, `none` for any `requests`
exception (connection error or `raise_for_status` on a non-2xx status). -/
abbrev Net := String → Option String

/-- Model of `download_file(session, url, dest)`: on any fetch error
return `False` with the filesystem untouched; otherwise compare with the
existing bytes, write only when new or different, and report whether a
write happened. -/
def download_file (net : Net) (url : String) (dest : LPath) (fs : FS) :
    Bool × FS :=
  match net url with
  | none => (false, fs)
  | some content =>
    if fsRead fs dest = some content then (false, fs)
    else (true, fsWrite fs dest content)

/-- Code-point lexicographic `≤` on strings, as Python compares `str`
(equal to `String` order; stated on `Char.toNat` code points). -/
def strLeC : List Char → List Char → Bool
  | [], _ => true
  | _ :: _, [] => false
  | a :: as, b :: bs =>
    if a.toNat < b.toNat then true
    else if b.toNat < a.toNat then false
    else strLeC as bs

/-- Python `url.endswith(".html")`. -/
def endsWithHtml (u : String) : Bool :=
  (u.data.reverse.take 5).reverse = ".html".data

/-- Insertion into a `≤`-sorted list of strings. -/
def insertSorted (s : String) : List String → List String
  | [] => [s]
  | x :: xs =>
    if strLeC s.data x.data then s :: x :: xs else x :: insertSorted s xs

/-- `sorted(...)` over Python strings (lexicographic by code point, which
is exactly `String` order). -/
def sortStrings (l : List String) : List String :=
  l.foldr insertSorted []

/-- `sorted(<set>)`: deduplicate, then sort. -/
def sortedSet (l : List String) : List String :=
  sortStrings l.dedup

/-- The first download pass of `fetch_snapshot` over the sorted asset
list: skip URLs ending in `.html`, download each remaining asset to its
mapped path, and collect CSS references from every `.css` file that
exists after its download (re-read from disk).  Returns (changed-any,
filesystem, collected second-level URLs). -/
def pass1 (net : Net) (cacheRoot : LPath) :
    List String → FS → Bool × FS × List String
  | [], fs => (false, fs, [])
  | u :: rest, fs =>
    if endsWithHtml u then pass1 net cacheRoot rest fs
    else
      let dest := safe_path_for_url u cacheRoot
      let step := download_file net u dest fs
      let css :=
        if (suffixC (dest.getLast?.getD "").data).map Char.toLower = ".css".data then
          match fsRead step.2 dest with
          | some s => extract_urls_from_css u s
          | none => []
        else []
      let next := pass1 net cacheRoot rest step.2
      (step.1 || next.1, next.2.1, css ++ next.2.2)

/-- The second download pass: download every second-level URL. -/
def pass2 (net : Net) (cacheRoot : LPath) :
    List String → FS → Bool × FS
  | [], fs => (false, fs)
  | u :: rest, fs =>
    let step := download_file net u (safe_path_for_url u cacheRoot) fs
    let next := pass2 net cacheRoot rest step.2
    (step.1 || next.1, next.2)

/-- One fetch-cycle result (`SnapshotResult`). -/
structure SnapshotResult where
  changed : Bool
  html_path : LPath
deriving DecidableEq, Repr

/-- Model of `fetch_snapshot(cache_root, target_url, user_agent,
extra_paths)`.  `netDoc` is the parsed primary document when its fetch
succeeds (`none` propagates the exception: the function returns `none`
instead of a result).  The user agent only decorates requests and is not
modelled.  Assets are the extracted set united with the resolved extra
paths, visited in sorted order; the rewritten document is persisted at
`cacheRoot/index.html` when its bytes differ from the previous ones. -/
def fetch_snapshot (net : Net) (netDoc : Option (List HtmlEl))
    (cacheRoot : LPath) (target : String) (extraPaths : List String)
    (fs : FS) : Option (SnapshotResult × FS) :=
  let indexPath := cacheRoot ++ ["index.html"]
  let oldHtml := fsRead fs indexPath
  match netDoc with
  | none => none
  | some doc =>
    let assets := extractAssetList target doc
      ++ extraPaths.map (fun rel => urljoin target rel)
    let r1 := pass1 net cacheRoot (sortedSet assets) fs
    let r2 := pass2 net cacheRoot (sortedSet r1.2.2) r1.2.1
    let newHtml := serializeDoc (rewrite_html_to_local target cacheRoot doc)
    let r3 :=
      if oldHtml ≠ some newHtml then (true, fsWrite r2.2 indexPath newHtml)
      else (false, r2.2)
    some (⟨r1.1 || r2.1 || r3.1, indexPath⟩, r3.2)

/-! ## Well-formedness predicates used to state the theorems -/

/-- A clean local-path segment: non-empty, not a dot segment, and free of
the delimiter characters (`/`, `?`, `#`) and of tab/CR/LF. -/
def relSegOK (s : List Char) : Bool :=
  s ≠ [] && s ≠ ['.'] && s ≠ ['.', '.'] &&
    s.all (fun c => !(c == '/' || c == '?' || c == '#' || unsafeUrlChar c))

/-- A clean mapper-output path: non-empty clean segments, the last one
free of `;` and carrying a file extension. -/
def relOK (rel : List (List Char)) : Bool :=
  match rel.getLast? with
  | none => false
  | some lastSeg =>
    rel.all relSegOK && lastSeg.all (· ≠ ';') && hasSuffixC lastSeg

/-- An attribute value that is already a clean local cache reference:
`/seg1/.../segn` with `relOK` segments (the shape `to_rel` produces for
ordinary asset URLs). -/
def localRefOK (u : String) : Bool :=
  match u.data with
  | '/' :: rest => relOK (splitAllC '/' rest)
  | _ => false

/-- A base URL whose parse is an ordinary absolute hierarchical URL:
non-empty lowercase-alpha-led scheme in both `uses_relative` and
`uses_netloc`, and a non-empty, delimiter-free host. -/
def baseOK (base : String) : Bool :=
  let b := urlparseC [] base.data
  base ≠ "" && b.scheme ≠ [] && (b.scheme.head?.getD ' ').isAlpha &&
    b.scheme.all schemeChar &&
    b.scheme.all (fun c => !unsafeUrlChar c && !c0OrSpace c && !(c == ':')) &&
    decide (b.scheme ∈ usesRelative) && decide (b.scheme ∈ usesNetloc) &&
    b.netloc ≠ [] && b.netloc ≠ ['.'] &&
    b.netloc.all (fun c => !(c == '/' || c == '?' || c == '#' || unsafeUrlChar c))

/-- The attribute `a` of `el`, when present and non-empty, is a clean
local cache reference. -/
def attrLocalOK (el : HtmlEl) (a : String) : Bool :=
  match getAttr el a with
  | some u => u == "" || localRefOK u
  | none => true

/-- The CSS references `pass1` would collect if no download changed the
filesystem: for each non-`.html` URL whose mapped path has a `.css`
suffix and exists in `fs`, the references of its on-disk text. -/
def cssCollectStatic (cacheRoot : LPath) (fs : FS) : List String → List String
  | [] => []
  | u :: rest =>
    if endsWithHtml u then cssCollectStatic cacheRoot fs rest
    else
      let dest := safe_path_for_url u cacheRoot
      (if (suffixC (dest.getLast?.getD "").data).map Char.toLower = ".css".data then
        match fsRead fs dest with
        | some s => extract_urls_from_css u s
        | none => []
      else []) ++ cssCollectStatic cacheRoot fs rest

/-- "Downloading `u` would find nothing new": the fetch fails, or the
fetched bytes equal the bytes already at the mapped path in `fs`. -/
def matchesB (net : Net) (cacheRoot : LPath) (fs : FS) (u : String) : Bool :=
  match net u with
  | some s => fsRead fs (safe_path_for_url u cacheRoot) == some s
  | none => true

/-! ## Theorems -/

/-- Claim C9: for every input URL — including URLs whose path contains
`..` segments — the local path returned by `safe_path_for_url` should lie
inside the cache root.  The code violates this: the URL
`http://h.com/../../x.png` is mapped to the relative path
`../../x.png`, which lexically escapes the cache root (and whose parent
directories `safe_path_for_url` creates outside the cache root). -/
theorem c9_safe_path_escapes_cache_root :
    safeRel "http://h.com/../../x.png" = ["..", "..", "x.png"] ∧
      escapesRoot (safeRel "http://h.com/../../x.png") = true := by
  constructor <;> decide

/-- Helper: when the URL's host parses as one clean segment, the mapper
output is the finalized stripped path, host dropped. -/
theorem safeRel_of_host_seg (url : String)
    (h : pathSegsC (urlparseS url).netloc = [(urlparseS url).netloc]) :
    safeRel url =
      (finalizeC (pathSegsC ((urlparseS url).path.dropWhile (· = '/')))).map
        String.mk := by
  unfold safeRel safeRelC
  have hps : urlparseC [] url.data = urlparseS url := rfl
  rw [hps]
  simp [h]

/-- Claim C1, counterexample: the claimed layout
`cacheRoot/<host>/<path>` does not hold — `http://a.com/x.css` maps to
`cacheRoot/x.css`, not `cacheRoot/a.com/x.css`, and the distinct-host URL
`http://b.com/x.css` maps to the very same local path. -/
theorem c1_counterexample :
    safe_path_for_url "http://a.com/x.css" ["cache"] =
        safe_path_for_url "http://b.com/x.css" ["cache"] ∧
      safe_path_for_url "http://a.com/x.css" ["cache"] ≠
        ["cache", "a.com", "x.css"] ∧
      "a.com" ≠ "b.com" := by
  refine ⟨by decide, by decide, by decide⟩

/-- Claim C1, amended: for every URL whose host parses as one clean path
segment, `safe_path_for_url` drops the host — the result is
`cacheRoot/<url-path-with-leading-slash-stripped>` (with the final-segment
fixups), independent of the host, so two URLs with distinct hosts but
equal paths map to the same local path. -/
theorem c1_host_dropped (url : String) (cacheRoot : List String)
    (h : pathSegsC (urlparseS url).netloc = [(urlparseS url).netloc]) :
    safe_path_for_url url cacheRoot =
      cacheRoot ++
        (finalizeC (pathSegsC ((urlparseS url).path.dropWhile (· = '/')))).map
          String.mk := by
  rw [safe_path_for_url, safeRel_of_host_seg url h]

/-- Witness for `c1_host_dropped` at `http://a.com/x.css`. -/
theorem c1_host_dropped_witness :
    safe_path_for_url "http://a.com/x.css" ["cache"] =
      ["cache"] ++
        (finalizeC (pathSegsC
          ((urlparseS "http://a.com/x.css").path.dropWhile (· = '/')))).map
          String.mk :=
  c1_host_dropped "http://a.com/x.css" ["cache"] (by decide)

/-- Claim C2, counterexample: a URL that ends in `/` with a non-empty
path does not get `index.html` appended — `pathlib` drops the trailing
slash, so `http://h.com/a/` maps to `a.html`, not to `a/index.html`. -/
theorem c2_counterexample :
    safeRel "http://h.com/a/" = ["a.html"] ∧
      safeRel "http://h.com/a/" ≠ ["a", "index.html"] := by
  refine ⟨by decide, by decide⟩

/-- Claim C2, amended: for a URL whose host parses as one clean segment,
`index.html` is appended exactly when the stripped URL path has no
segments at all (path empty or only slashes — trailing slashes on a
non-empty path are simply dropped); and when the final segment exists,
`.html` is appended to it iff it has no file extension. -/
theorem c2_final_segment_fixups (url : String)
    (h : pathSegsC (urlparseS url).netloc = [(urlparseS url).netloc]) :
    (pathSegsC ((urlparseS url).path.dropWhile (· = '/')) = [] →
        safeRel url = ["index.html"]) ∧
      (∀ pre s,
        pathSegsC ((urlparseS url).path.dropWhile (· = '/')) = pre ++ [s] →
          hasSuffixC s = false →
          safeRel url = (pre ++ [s ++ ".html".data]).map String.mk) ∧
      (∀ pre s,
        pathSegsC ((urlparseS url).path.dropWhile (· = '/')) = pre ++ [s] →
          hasSuffixC s = true →
          safeRel url = (pre ++ [s]).map String.mk) := by
  have hbase := safeRel_of_host_seg url h
  refine ⟨?_, ?_, ?_⟩
  · intro hs
    rw [hbase, hs]
    decide
  · intro pre s hs hsuf
    rw [hbase, hs]
    unfold finalizeC
    simp [List.getLast?_concat, hsuf, List.dropLast_concat]
  · intro pre s hs hsuf
    rw [hbase, hs]
    unfold finalizeC
    simp [List.getLast?_concat, hsuf]

/-- Witness for `c2_final_segment_fixups` at `http://h.com/sub/route`
(extension-less final segment). -/
theorem c2_final_segment_fixups_witness :
    safeRel "http://h.com/sub/route" =
      (["sub".data] ++ ["route".data ++ ".html".data]).map String.mk :=
  (c2_final_segment_fixups "http://h.com/sub/route" (by decide)).2.1
    ["sub".data] "route".data (by decide) (by decide)

/-- Claim C7, counterexample: the `data:` exclusion is a case-sensitive
literal prefix test on the reference text, so a CSS reference written
`url(DATA:x)` survives it, and the returned set contains `DATA:x` — a URL
whose scheme (as `urlparse` reports schemes, lowercased) is `data`. -/
theorem c7_counterexample :
    extract_urls_from_css "http://h/" "url(DATA:x)" = ["DATA:x"] ∧
      urlScheme "DATA:x" = "data" := by
  refine ⟨by decide, by decide⟩

/-- Claim C7, amended: every URL returned by CSS extraction is the
resolution against the base of a matched reference that does not start
with the literal string `data:`; the exclusion applies to the raw
reference text before resolution (so `DATA:`-cased references and
`data:` base URLs are not excluded). -/
theorem c7_data_filter_on_raw_reference (base css u : String)
    (hu : u ∈ extract_urls_from_css base css) :
    ∃ raw : List Char,
      startsWithData raw = false ∧ u = urljoin base (String.mk raw) := by
  unfold extract_urls_from_css at hu
  rcases List.mem_append.mp hu with h | h <;>
  · rcases List.mem_filterMap.mp h with ⟨raw, _, hraw⟩
    cases hd : startsWithData raw with
    | false =>
      rw [hd] at hraw
      simp only [Bool.false_eq_true, if_false, Option.some.injEq] at hraw
      exact ⟨raw, hd, hraw.symm⟩
    | true =>
      rw [hd] at hraw
      simp at hraw

/-- Witness for `c7_data_filter_on_raw_reference` at a one-reference
stylesheet. -/
theorem c7_data_filter_on_raw_reference_witness :
    ∃ raw : List Char,
      startsWithData raw = false ∧
        "http://h/a.png" = urljoin "http://h/" (String.mk raw) :=
  c7_data_filter_on_raw_reference "http://h/" "url(a.png)" "http://h/a.png"
    (by decide)

/-- Claim C4: on HTML holding exactly `<link href="/a.css">`,
`<script src="b.js">`, `<img src="c.png">` and an inline
`<style>@import url(d.css)</style>`, extraction returns exactly the four
references resolved against the base URL. -/
theorem c4_extracts_exactly_four (base : String) :
    extract_asset_urls base
        [⟨"link", [("href", "/a.css")], none⟩,
         ⟨"script", [("src", "b.js")], none⟩,
         ⟨"img", [("src", "c.png")], none⟩,
         ⟨"style", [], some "@import url(d.css)"⟩] =
      {urljoin base "/a.css", urljoin base "b.js", urljoin base "c.png",
        urljoin base "d.css"} := by
  have hl : extractAssetList base
      [⟨"link", [("href", "/a.css")], none⟩,
       ⟨"script", [("src", "b.js")], none⟩,
       ⟨"img", [("src", "c.png")], none⟩,
       ⟨"style", [], some "@import url(d.css)"⟩] =
      [urljoin base "/a.css", urljoin base "b.js", urljoin base "c.png",
        urljoin base "d.css"] := rfl
  unfold extract_asset_urls
  rw [hl]
  simp

/-- Helper: the resolution of a URL carrying the `data` scheme is the URL
itself (the scheme is never in `uses_relative`, so `urljoin` returns the
input unchanged). -/
theorem urljoin_of_data (base u : String)
    (h : startsWithData u.data = true) : urljoin base u = u := by
  obtain ⟨rest, hrest⟩ : ∃ rest, u.data = "data:".data ++ rest := by
    have h' : u.data.take 5 = "data:".data := by
      unfold startsWithData at h
      exact of_decide_eq_true h
    refine ⟨u.data.drop 5, ?_⟩
    rw [← h']
    exact (List.take_append_drop 5 u.data).symm
  unfold urljoin urljoinC
  by_cases hb : base.data = []
  · simp [hb]
  · have hu : u.data ≠ [] := by rw [hrest]; simp
    have hscheme : (urlparseC (urlparseC [] base.data).scheme u.data).scheme =
        "data".data := by
      rw [hrest]
      unfold urlparseC urlparseCore
      simp [List.filter, unsafeUrlChar, c0OrSpace, schemeSplit, splitOnceC,
        schemeChar, Char.isAlpha, Char.isUpper, Char.isLower, Char.isDigit]
    simp only [hb, if_false, hu, hscheme]
    have : ¬("data".data = (urlparseC [] base.data).scheme ∧
        "data".data ∈ usesRelative) := by
      rintro ⟨-, hmem⟩
      revert hmem
      decide
    simp only [this, not_false_eq_true, if_true]

/-- Claim C10: the `data:` exclusion does not apply to HTML attribute
extraction — a `link[href]`, `script[src]` or `img[src]` whose value is a
`data:` URI contributes that URI itself to the extracted set. -/
theorem c10_html_data_uri_included (base : String) (doc : List HtmlEl)
    (el : HtmlEl) (u : String) (hel : el ∈ doc)
    (hattr : (el.tag = "link" ∧ getAttr el "href" = some u) ∨
      (el.tag = "script" ∧ getAttr el "src" = some u) ∨
      (el.tag = "img" ∧ getAttr el "src" = some u))
    (hdata : startsWithData u.data = true) :
    u ∈ extract_asset_urls base doc := by
  have hne : u ≠ "" := by
    intro h
    rw [h] at hdata
    exact absurd hdata (by decide)
  have hju : urljoin base u = u := urljoin_of_data base u hdata
  have hmem : ∀ t a, el.tag = t → getAttr el a = some u →
      u ∈ (refsFor doc t a).map (fun v => urljoin base v) := by
    intro t a ht ha
    rw [List.mem_map]
    exact ⟨u, List.mem_filterMap.mpr ⟨el, hel, by simp [ht, ha, hne]⟩, hju⟩
  unfold extract_asset_urls
  rw [List.mem_toFinset]
  unfold extractAssetList
  refine List.mem_append.mpr (Or.inl ?_)
  rw [List.map_append, List.map_append]
  rcases hattr with ⟨ht, ha⟩ | ⟨ht, ha⟩ | ⟨ht, ha⟩
  · exact List.mem_append.mpr (Or.inl (List.mem_append.mpr
      (Or.inl (hmem _ _ ht ha))))
  · exact List.mem_append.mpr (Or.inl (List.mem_append.mpr
      (Or.inr (hmem _ _ ht ha))))
  · exact List.mem_append.mpr (Or.inr (hmem _ _ ht ha))

/-! ### List toolkit for the parser proofs -/

theorem splitOnceC_eq_some {c : Char} {l a b : List Char}
    (h : splitOnceC c l = some (a, b)) : l = a ++ c :: b ∧ c ∉ a := by
  induction l generalizing a with
  | nil => simp [splitOnceC] at h
  | cons x xs ih =>
    rw [splitOnceC] at h
    by_cases hx : x = c
    · rw [if_pos hx] at h
      obtain ⟨rfl, rfl⟩ : [] = a ∧ xs = b := by
        simpa using h
      simp [hx]
    · rw [if_neg hx] at h
      cases hs : splitOnceC c xs with
      | none => rw [hs] at h; simp at h
      | some pr =>
        rw [hs] at h
        obtain ⟨rfl, rfl⟩ : x :: pr.1 = a ∧ pr.2 = b := by
          simpa using h
        obtain ⟨h1, h2⟩ := ih (a := pr.1) (by rw [hs])
        refine ⟨by simp [h1], by simp [h2, Ne.symm hx]⟩

theorem splitOnceC_eq_none {c : Char} {l : List Char} :
    splitOnceC c l = none ↔ c ∉ l := by
  induction l with
  | nil => simp [splitOnceC]
  | cons x xs ih =>
    rw [splitOnceC]
    by_cases hx : x = c
    · simp [hx]
    · rw [if_neg hx]
      cases hs : splitOnceC c xs with
      | none => simp [List.mem_cons, ih.mp hs, Ne.symm hx]
      | some pr =>
        have hcm : c ∈ xs := by
          obtain ⟨heq, -⟩ :=
            splitOnceC_eq_some (a := pr.1) (b := pr.2) (by rw [hs])
          rw [heq]; simp
        simp only [reduceCtorEq, false_iff, not_not]
        exact List.mem_cons_of_mem _ hcm

theorem splitOnceC_append_left {c : Char} {a p s : List Char} (b : List Char)
    (h : splitOnceC c a = some (p, s)) :
    splitOnceC c (a ++ b) = some (p, s ++ b) := by
  induction a generalizing p with
  | nil => simp [splitOnceC] at h
  | cons x xs ih =>
    rw [splitOnceC] at h
    rw [List.cons_append, splitOnceC]
    by_cases hx : x = c
    · rw [if_pos hx] at h ⊢
      obtain ⟨rfl, rfl⟩ : [] = p ∧ xs = s := by simpa using h
      simp
    · rw [if_neg hx] at h ⊢
      cases hs : splitOnceC c xs with
      | none => rw [hs] at h; simp at h
      | some pr =>
        rw [hs] at h
        obtain ⟨rfl, rfl⟩ : x :: pr.1 = p ∧ pr.2 = s := by simpa using h
        rw [ih (by rw [hs])]

theorem splitOnceC_append_right {c : Char} {a : List Char} (b : List Char)
    (h : c ∉ a) :
    splitOnceC c (a ++ b) =
      (splitOnceC c b).map (fun x => (a ++ x.1, x.2)) := by
  induction a with
  | nil =>
    simp only [List.nil_append]
    cases splitOnceC c b <;> simp
  | cons x xs ih =>
    rw [List.cons_append, splitOnceC,
      if_neg (fun hx => h (by simp [hx])),
      ih (fun hmem => h (by simp [hmem]))]
    cases splitOnceC c b <;> simp

theorem takeWhile_append_of_all {p : Char → Bool} {a : List Char}
    (b : List Char) (h : a.all p) :
    (a ++ b).takeWhile p = a ++ b.takeWhile p := by
  induction a with
  | nil => simp
  | cons x xs ih =>
    rw [List.all_cons, Bool.and_eq_true] at h
    simp [List.takeWhile_cons, h.1, ih h.2]

theorem dropWhile_append_of_all {p : Char → Bool} {a : List Char}
    (b : List Char) (h : a.all p) :
    (a ++ b).dropWhile p = b.dropWhile p := by
  induction a with
  | nil => simp
  | cons x xs ih =>
    rw [List.all_cons, Bool.and_eq_true] at h
    simp [List.dropWhile_cons, h.1, ih h.2]

theorem takeWhile_append_of_not_all {p : Char → Bool} {a : List Char}
    (b : List Char) (h : ¬ a.all p) :
    (a ++ b).takeWhile p = a.takeWhile p ∧
      (a ++ b).dropWhile p = a.dropWhile p ++ b := by
  induction a with
  | nil => simp at h
  | cons x xs ih =>
    by_cases hx : p x
    · have hxs : ¬ xs.all p := fun hall => h (by simp [hx, hall])
      simp [List.takeWhile_cons, List.dropWhile_cons, hx, (ih hxs).1, (ih hxs).2]
    · simp [List.takeWhile_cons, List.dropWhile_cons, hx]

theorem mem_of_mem_dropWhile {p : Char → Bool} {a : List Char} {x : Char}
    (h : x ∈ a.dropWhile p) : x ∈ a := by
  induction a with
  | nil => simp at h
  | cons y ys ih =>
    rw [List.dropWhile_cons] at h
    by_cases hy : p y
    · simp only [hy, if_true] at h
      exact List.mem_cons_of_mem _ (ih h)
    · simp only [hy, if_false] at h
      exact h

/-! ### Equation lemmas for the parser steps -/

theorem schemeSplit_eq_of_some (dflt : List Char) {url pre post : List Char}
    (hca : (url.head?.getD '/').isAlpha = true)
    (hsp : splitOnceC ':' url = some (pre, post)) :
    schemeSplit dflt url =
      if pre ≠ [] ∧ pre.all schemeChar then (pre.map Char.toLower, post)
      else (dflt, url) := by
  unfold schemeSplit
  rw [if_pos hca, hsp]

theorem schemeSplit_eq_of_none (dflt : List Char) {url : List Char}
    (hsp : splitOnceC ':' url = none) :
    schemeSplit dflt url = (dflt, url) := by
  unfold schemeSplit
  by_cases hca : (url.head?.getD '/').isAlpha
  · rw [if_pos hca, hsp]
  · rw [if_neg hca]

theorem schemeSplit_eq_of_notalpha (dflt : List Char) {url : List Char}
    (hca : (url.head?.getD '/').isAlpha = false) :
    schemeSplit dflt url = (dflt, url) := by
  unfold schemeSplit
  rw [if_neg (by rw [hca]; exact Bool.false_ne_true)]

theorem netlocSplit_eq_of_slashes {url : List Char}
    (h : url.take 2 = ['/', '/']) :
    netlocSplit url =
      ((url.drop 2).takeWhile nonDelim, (url.drop 2).dropWhile nonDelim) := by
  unfold netlocSplit
  rw [if_pos h]

theorem netlocSplit_eq_of_no_slashes {url : List Char}
    (h : url.take 2 ≠ ['/', '/']) :
    netlocSplit url = ([], url) := by
  unfold netlocSplit
  rw [if_neg h]

/-! ### Query irrelevance of the parse (for claim C8) -/

/-- The scheme step maps `u` and `u ++ '?' :: q` to rests differing by
exactly the `'?' :: q` tail, the common part free of `?` and `#`. -/
theorem schemeSplit_append_query (dflt dflt' : List Char) (u q : List Char)
    (hq : '?' ∉ u) (hh : '#' ∉ u) :
    ∃ r, (schemeSplit dflt u).2 = r ∧
      (schemeSplit dflt' (u ++ '?' :: q)).2 = r ++ '?' :: q ∧
      '?' ∉ r ∧ '#' ∉ r := by
  cases u with
  | nil =>
    refine ⟨[], by rw [schemeSplit_eq_of_notalpha _ (by decide)], ?_,
      by simp, by simp⟩
    rw [List.nil_append, schemeSplit_eq_of_notalpha _
      (by rw [show (('?' :: q).head?.getD '/') = '?' from rfl]; decide)]
  | cons c cs =>
    have happ : (c :: cs) ++ '?' :: q = c :: (cs ++ '?' :: q) := rfl
    have hhd : ((c :: cs).head?.getD '/') = c := rfl
    have hhd' : ((c :: (cs ++ '?' :: q)).head?.getD '/') = c := rfl
    by_cases hca : c.isAlpha
    · cases hsp : splitOnceC ':' (c :: cs) with
      | some pr =>
        obtain ⟨p1, p2⟩ := pr
        have hsp' : splitOnceC ':' (c :: (cs ++ '?' :: q)) =
            some (p1, p2 ++ '?' :: q) := by
          rw [← happ]
          exact splitOnceC_append_left _ hsp
        obtain ⟨heq, -⟩ := splitOnceC_eq_some hsp
        have hqs : '?' ∉ p2 := fun hm => hq (by rw [heq]; simp [hm])
        have hhs : '#' ∉ p2 := fun hm => hh (by rw [heq]; simp [hm])
        rw [happ, schemeSplit_eq_of_some dflt (by rw [hhd, hca]) hsp,
          schemeSplit_eq_of_some dflt' (by rw [hhd', hca]) hsp']
        by_cases hg : p1 ≠ [] ∧ p1.all schemeChar
        · rw [if_pos hg, if_pos hg]
          exact ⟨p2, rfl, rfl, hqs, hhs⟩
        · rw [if_neg hg, if_neg hg]
          exact ⟨c :: cs, rfl, by rw [happ], hq, hh⟩
      | none =>
        have hnm : ':' ∉ c :: cs := splitOnceC_eq_none.mp hsp
        rw [happ, schemeSplit_eq_of_none dflt hsp]
        have hsp' : splitOnceC ':' (c :: (cs ++ '?' :: q)) =
            (splitOnceC ':' q).map
              (fun x => ((c :: cs) ++ '?' :: x.1, x.2)) := by
          rw [← happ, splitOnceC_append_right _ hnm,
            show ('?' :: q : List Char) = ['?'] ++ q from rfl,
            splitOnceC_append_right q (by decide)]
          cases splitOnceC ':' q <;> simp
        cases hsq : splitOnceC ':' q with
        | none =>
          rw [hsq] at hsp'
          rw [schemeSplit_eq_of_none dflt' (by simpa using hsp')]
          exact ⟨c :: cs, rfl, by rw [happ], hq, hh⟩
        | some qpr =>
          obtain ⟨qp1, qp2⟩ := qpr
          rw [hsq] at hsp'
          simp at hsp'
          have hguard : ¬((c :: (cs ++ '?' :: qp1)) ≠ [] ∧
              (c :: (cs ++ '?' :: qp1)).all schemeChar) := by
            rintro ⟨-, hall⟩
            have := (List.all_eq_true.mp hall) '?' (by simp)
            exact absurd this (by decide)
          rw [schemeSplit_eq_of_some dflt' (by rw [hhd', hca]) hsp',
            if_neg hguard]
          exact ⟨c :: cs, rfl, by rw [happ], hq, hh⟩
    · rw [happ, schemeSplit_eq_of_notalpha dflt (by rw [hhd]; simpa using hca),
        schemeSplit_eq_of_notalpha dflt' (by rw [hhd']; simpa using hca)]
      exact ⟨c :: cs, rfl, by rw [happ], hq, hh⟩

/-- The netloc step maps `r` and `r ++ '?' :: q` to the same netloc and
to rests differing by exactly the `'?' :: q` tail. -/
theorem netlocSplit_append_query (r q : List Char)
    (hq : '?' ∉ r) (hh : '#' ∉ r) :
    ∃ n r2, netlocSplit r = (n, r2) ∧
      netlocSplit (r ++ '?' :: q) = (n, r2 ++ '?' :: q) ∧
      '?' ∉ r2 ∧ '#' ∉ r2 := by
  by_cases h2 : r.take 2 = ['/', '/']
  · obtain ⟨t, rfl⟩ : ∃ t, r = '/' :: '/' :: t := by
      cases r with
      | nil => simp at h2
      | cons a r' =>
        cases r' with
        | nil => simp [List.take] at h2
        | cons b t =>
          simp only [List.take, List.cons.injEq] at h2
          exact ⟨t, by rw [h2.1, h2.2.1]⟩
    have hqt : '?' ∉ t := fun hm => hq (by simp [hm])
    have hht : '#' ∉ t := fun hm => hh (by simp [hm])
    have happ : ('/' :: '/' :: t) ++ '?' :: q = '/' :: '/' :: (t ++ '?' :: q) :=
      rfl
    rw [happ, netlocSplit_eq_of_slashes h2, netlocSplit_eq_of_slashes (by simp)]
    rw [show ('/' :: '/' :: t).drop 2 = t from rfl,
      show ('/' :: '/' :: (t ++ '?' :: q)).drop 2 = t ++ '?' :: q from rfl]
    by_cases hall : t.all nonDelim
    · refine ⟨t, [], ?_, ?_, by simp, by simp⟩
      · rw [List.takeWhile_eq_self_iff.mpr
            (fun x hx => (List.all_eq_true.mp hall) x hx),
          List.dropWhile_eq_nil_iff.mpr
            (fun x hx => (List.all_eq_true.mp hall) x hx)]
      · rw [takeWhile_append_of_all _ hall, dropWhile_append_of_all _ hall,
          show List.takeWhile nonDelim ('?' :: q) = [] from rfl,
          show List.dropWhile nonDelim ('?' :: q) = '?' :: q from rfl]
        simp
    · obtain ⟨ht, hd⟩ := takeWhile_append_of_not_all ('?' :: q) hall
      refine ⟨t.takeWhile nonDelim, t.dropWhile nonDelim,
        rfl, by rw [ht, hd],
        fun hm => hqt (mem_of_mem_dropWhile hm),
        fun hm => hht (mem_of_mem_dropWhile hm)⟩
  · have h2' : (r ++ '?' :: q).take 2 ≠ ['/', '/'] := by
      cases r with
      | nil => simp
      | cons a r' =>
        cases r' with
        | nil =>
          simp only [List.cons_append, List.nil_append, List.take,
            ne_eq, List.cons.injEq]
          rintro ⟨-, h, -⟩
          exact absurd h (by decide)
        | cons b t => simpa [List.take] using h2
    rw [netlocSplit_eq_of_no_slashes h2, netlocSplit_eq_of_no_slashes h2']
    exact ⟨[], r, rfl, rfl, hq, hh⟩

/-- Appending `?query` to a query-and-fragment-free URL changes neither
the parsed netloc nor the parsed path. -/
theorem urlparseCore_append_query (dflt dflt' : List Char) (u q : List Char)
    (hq : '?' ∉ u) (hh : '#' ∉ u) (hhq : '#' ∉ q) :
    (urlparseCore dflt' (u ++ '?' :: q)).netloc =
        (urlparseCore dflt u).netloc ∧
      (urlparseCore dflt' (u ++ '?' :: q)).path =
        (urlparseCore dflt u).path := by
  obtain ⟨r, hr1, hr2, hrq, hrh⟩ := schemeSplit_append_query dflt dflt' u q hq hh
  obtain ⟨n, r2, hn1, hn2, hrq2, hrh2⟩ := netlocSplit_append_query r q hrq hrh
  have hfr : splitOnceC '#' r2 = none := splitOnceC_eq_none.mpr hrh2
  have hfrq : splitOnceC '#' (r2 ++ '?' :: q) = none := by
    refine splitOnceC_eq_none.mpr fun hm => ?_
    rcases List.mem_append.mp hm with h | h
    · exact hrh2 h
    · rcases List.mem_cons.mp h with h | h
      · exact absurd h (by decide)
      · exact hhq h
  have hqr : splitOnceC '?' r2 = none := splitOnceC_eq_none.mpr hrq2
  have hqrq : splitOnceC '?' (r2 ++ '?' :: q) = some (r2, q) := by
    rw [splitOnceC_append_right _ hrq2,
      show splitOnceC '?' ('?' :: q) = some ([], q) from by
        rw [splitOnceC]; simp]
    simp
  simp only [urlparseCore, hr1, hr2, hn1, hn2, hfr, hfrq, hqr, hqrq]
  refine ⟨?_, ?_⟩ <;> trivial

/-- Claim C8: two URLs that differ only in their query string (the common
part being query- and fragment-free, non-empty, and not starting with a
stripped control character; the queries being fragment-free) map to the
same local path under the same cache root. -/
theorem c8_query_ignored (u q1 q2 : String) (cacheRoot : List String)
    (hq : '?' ∉ u.data) (hh : '#' ∉ u.data)
    (h1 : '#' ∉ q1.data) (h2 : '#' ∉ q2.data)
    (hne : u ≠ "") (hhd : c0OrSpace u.data.headI = false) :
    safe_path_for_url (u ++ "?" ++ q1) cacheRoot =
      safe_path_for_url (u ++ "?" ++ q2) cacheRoot := by
  obtain ⟨c, cs, hu⟩ : ∃ c cs, u.data = c :: cs := by
    cases hcu : u.data with
    | nil => exact absurd (by apply String.ext; rw [hcu]) hne
    | cons c cs => exact ⟨c, cs, rfl⟩
  have hhd' : ¬ c0OrSpace c = true := by
    intro hcon
    rw [hu, show (c :: cs).headI = c from rfl, hcon] at hhd
    exact absurd hhd (by decide)
  have h32 : ¬ c.toNat ≤ 32 := by
    intro hle
    exact hhd' (by unfold c0OrSpace; exact decide_eq_true hle)
  have hcpass : (fun x => !unsafeUrlChar x) c = true := by
    have hne9 : c ≠ '\t' := fun hEq => h32 (by rw [hEq]; decide)
    have hne13 : c ≠ '\r' := fun hEq => h32 (by rw [hEq]; decide)
    have hne10 : c ≠ '\n' := fun hEq => h32 (by rw [hEq]; decide)
    unfold unsafeUrlChar
    simp [hne9, hne13, hne10]
  have key : ∀ q : String, '#' ∉ q.data →
      (urlparseC [] (u ++ "?" ++ q).data).netloc =
          (urlparseC [] u.data).netloc ∧
        (urlparseC [] (u ++ "?" ++ q).data).path = (urlparseC [] u.data).path := by
    intro q hq'
    have hdata : (u ++ "?" ++ q).data = u.data ++ '?' :: q.data := by
      rw [String.data_append, String.data_append]
      simp
    unfold urlparseC
    rw [hdata, hu,
      show ((c :: cs) ++ '?' :: q.data) = c :: (cs ++ '?' :: q.data) from rfl,
      List.dropWhile_cons_of_neg hhd', List.dropWhile_cons_of_neg hhd',
      List.filter_cons_of_pos (p := fun x => !unsafeUrlChar x) hcpass,
      List.filter_cons_of_pos (p := fun x => !unsafeUrlChar x) hcpass,
      List.filter_append,
      show List.filter (fun x => !unsafeUrlChar x) ('?' :: q.data) =
        '?' :: List.filter (fun x => !unsafeUrlChar x) q.data from by
          rw [List.filter_cons_of_pos (p := fun x => !unsafeUrlChar x)
            (by decide)]]
    have hqf : '?' ∉ c :: List.filter (fun x => !unsafeUrlChar x) cs := by
      intro hm
      rcases List.mem_cons.mp hm with h | h
      · exact hq (by rw [hu, ← h]; simp)
      · exact hq (by
          rw [hu]
          exact List.mem_cons_of_mem _ (List.mem_of_mem_filter h))
    have hhf : '#' ∉ c :: List.filter (fun x => !unsafeUrlChar x) cs := by
      intro hm
      rcases List.mem_cons.mp hm with h | h
      · exact hh (by rw [hu, ← h]; simp)
      · exact hh (by
          rw [hu]
          exact List.mem_cons_of_mem _ (List.mem_of_mem_filter h))
    have hhqf : '#' ∉ List.filter (fun x => !unsafeUrlChar x) q.data :=
      fun hm => hq' (List.mem_of_mem_filter hm)
    have hres := urlparseCore_append_query [] []
      (c :: List.filter (fun x => !unsafeUrlChar x) cs)
      (List.filter (fun x => !unsafeUrlChar x) q.data) hqf hhf hhqf
    rw [List.cons_append] at hres
    exact hres
  obtain ⟨kn1, kp1⟩ := key q1 h1
  obtain ⟨kn2, kp2⟩ := key q2 h2
  simp only [safe_path_for_url, safeRel, safeRelC]
  rw [kn1, kp1, kn2, kp2]

/-- Witness for `c8_query_ignored` at `a.png?v=1` / `a.png?v=2`. -/
theorem c8_query_ignored_witness :
    safe_path_for_url ("http://h/a.png" ++ "?" ++ "v=1") ["cache"] =
      safe_path_for_url ("http://h/a.png" ++ "?" ++ "v=2") ["cache"] :=
  c8_query_ignored "http://h/a.png" "v=1" "v=2" ["cache"]
    (by decide) (by decide) (by decide) (by decide) (by decide) (by decide)

/-! ### Filesystem and download-pass lemmas (for claims C3 and C5) -/

theorem fsRead_map_update_self (fs : FS) (p : LPath) (s : String) :
    (fs.find? (fun e => e.1 == p)).isSome = true →
    fsRead (fs.map (fun e => if e.1 = p then (e.1, s) else e)) p = some s := by
  induction fs with
  | nil => intro h; simp [List.find?] at h
  | cons x xs ih =>
    intro h
    by_cases hx : x.1 = p
    · unfold fsRead
      rw [List.map_cons, if_pos hx,
        List.find?_cons_of_pos _ (by simpa using hx)]
      rfl
    · unfold fsRead at ih ⊢
      rw [List.map_cons, if_neg hx,
        List.find?_cons_of_neg _ (by simpa using hx)]
      exact ih (by rwa [List.find?_cons_of_neg _ (by simpa using hx)] at h)

theorem fsRead_fsWrite_self (fs : FS) (p : LPath) (s : String) :
    fsRead (fsWrite fs p s) p = some s := by
  unfold fsWrite
  by_cases h : (fs.find? (fun e => e.1 == p)).isSome
  · rw [if_pos h]
    exact fsRead_map_update_self fs p s h
  · rw [if_neg h]
    unfold fsRead
    rw [List.find?_cons_of_pos _ (by simp)]
    rfl

theorem fsRead_map_update_other (fs : FS) (p p' : LPath) (s : String)
    (h : p' ≠ p) :
    fsRead (fs.map (fun e => if e.1 = p then (e.1, s) else e)) p' =
      fsRead fs p' := by
  induction fs with
  | nil => rfl
  | cons x xs ih =>
    unfold fsRead at ih ⊢
    rw [List.map_cons]
    by_cases hx : x.1 = p
    · rw [if_pos hx,
        List.find?_cons_of_neg _ (by simp [hx, Ne.symm h]),
        List.find?_cons_of_neg _ (by simp [hx, Ne.symm h])]
      exact ih
    · rw [if_neg hx]
      by_cases hx' : x.1 = p'
      · rw [List.find?_cons_of_pos _ (by simpa using hx'),
          List.find?_cons_of_pos _ (by simpa using hx')]
      · rw [List.find?_cons_of_neg _ (by simpa using hx'),
          List.find?_cons_of_neg _ (by simpa using hx')]
        exact ih

theorem fsRead_fsWrite_other (fs : FS) (p p' : LPath) (s : String)
    (h : p' ≠ p) : fsRead (fsWrite fs p s) p' = fsRead fs p' := by
  unfold fsWrite
  by_cases hs : (fs.find? (fun e => e.1 == p)).isSome
  · rw [if_pos hs]
    exact fsRead_map_update_other fs p p' s h
  · rw [if_neg hs]
    unfold fsRead
    rw [List.find?_cons_of_neg _ (by simpa using Ne.symm h)]

theorem download_file_of_matches (net : Net) (cacheRoot : LPath) (fs : FS)
    (u : String) (h : matchesB net cacheRoot fs u = true) :
    download_file net u (safe_path_for_url u cacheRoot) fs = (false, fs) := by
  unfold matchesB at h
  unfold download_file
  cases hn : net u with
  | none => rfl
  | some s =>
    rw [hn] at h
    show (if fsRead fs (safe_path_for_url u cacheRoot) = some s then
        (false, fs)
      else (true, fsWrite fs (safe_path_for_url u cacheRoot) s)) = (false, fs)
    rw [if_pos (by simpa using h)]

theorem download_file_false_inv (net : Net) (cacheRoot : LPath) (fs : FS)
    (u : String)
    (h : (download_file net u (safe_path_for_url u cacheRoot) fs).1 = false) :
    (download_file net u (safe_path_for_url u cacheRoot) fs).2 = fs ∧
      matchesB net cacheRoot fs u = true := by
  unfold download_file at h ⊢
  unfold matchesB
  cases hn : net u with
  | none => rw [hn] at h; exact ⟨rfl, rfl⟩
  | some s =>
    rw [hn] at h
    rw [show (match some s with
        | none => (false, fs)
        | some content =>
          if fsRead fs (safe_path_for_url u cacheRoot) = some content then
            (false, fs)
          else (true, fsWrite fs (safe_path_for_url u cacheRoot) content)) =
      (if fsRead fs (safe_path_for_url u cacheRoot) = some s then (false, fs)
        else (true, fsWrite fs (safe_path_for_url u cacheRoot) s)) from rfl]
        at h ⊢
    by_cases hm : fsRead fs (safe_path_for_url u cacheRoot) = some s
    · rw [if_pos hm] at h ⊢
      exact ⟨rfl, by simpa using hm⟩
    · rw [if_neg hm] at h
      simp at h

theorem download_file_read_dest (net : Net) (u : String) (dest : LPath)
    (fs : FS) (s : String) (h : net u = some s) :
    fsRead (download_file net u dest fs).2 dest = some s := by
  unfold download_file
  rw [h]
  rw [show (match some s with
      | none => (false, fs)
      | some content =>
        if fsRead fs dest = some content then (false, fs)
        else (true, fsWrite fs dest content)) =
    (if fsRead fs dest = some s then (false, fs)
      else (true, fsWrite fs dest s)) from rfl]
  by_cases hm : fsRead fs dest = some s
  · rw [if_pos hm]
    exact hm
  · rw [if_neg hm]
    exact fsRead_fsWrite_self fs dest s

theorem download_file_read_other (net : Net) (u : String) (dest p : LPath)
    (fs : FS) (h : p ≠ dest) :
    fsRead (download_file net u dest fs).2 p = fsRead fs p := by
  unfold download_file
  cases hn : net u with
  | none => rfl
  | some s =>
    rw [show (match (some s : Option String) with
        | none => (false, fs)
        | some content =>
          if fsRead fs dest = some content then (false, fs)
          else (true, fsWrite fs dest content)) =
      (if fsRead fs dest = some s then (false, fs)
        else (true, fsWrite fs dest s)) from rfl]
    by_cases hm : fsRead fs dest = some s
    · rw [if_pos hm]
    · rw [if_neg hm]
      exact fsRead_fsWrite_other fs dest p s h

theorem pass1_of_matches (net : Net) (cacheRoot : LPath) (urls : List String)
    (fs : FS)
    (h : ∀ u ∈ urls, ¬endsWithHtml u = true → matchesB net cacheRoot fs u = true) :
    pass1 net cacheRoot urls fs = (false, fs, cssCollectStatic cacheRoot fs urls) := by
  induction urls with
  | nil => rfl
  | cons u rest ih =>
    simp only [pass1, cssCollectStatic]
    by_cases hu : endsWithHtml u
    · rw [if_pos hu, if_pos hu]
      exact ih (fun v hv hnv => h v (List.mem_cons_of_mem _ hv) hnv)
    · rw [if_neg hu, if_neg hu]
      rw [download_file_of_matches net cacheRoot fs u
        (h u (List.mem_cons_self u rest) (by simpa using hu))]
      rw [ih (fun v hv hnv => h v (List.mem_cons_of_mem _ hv) hnv)]
      rfl

theorem pass1_false_inv (net : Net) (cacheRoot : LPath) (urls : List String)
    (fs : FS) (h : (pass1 net cacheRoot urls fs).1 = false) :
    (pass1 net cacheRoot urls fs).2.1 = fs ∧
      (pass1 net cacheRoot urls fs).2.2 = cssCollectStatic cacheRoot fs urls ∧
      (∀ u ∈ urls, ¬endsWithHtml u = true → matchesB net cacheRoot fs u = true) := by
  induction urls generalizing fs with
  | nil => exact ⟨rfl, rfl, by simp⟩
  | cons u rest ih =>
    simp only [pass1] at h ⊢
    simp only [cssCollectStatic]
    by_cases hu : endsWithHtml u
    · rw [if_pos hu] at h ⊢
      rw [if_pos hu]
      obtain ⟨hfs, hcss, hmat⟩ := ih fs h
      refine ⟨hfs, hcss, fun v hv hnv => ?_⟩
      rcases List.mem_cons.mp hv with rfl | hv'
      · exact absurd (by simpa using hu) hnv
      · exact hmat v hv' hnv
    · rw [if_neg hu] at h ⊢
      rw [if_neg hu]
      simp only [Bool.or_eq_false_iff] at h
      obtain ⟨hstep, hnext⟩ := h
      obtain ⟨hsfs, hmat⟩ :=
        download_file_false_inv net cacheRoot fs u hstep
      rw [hsfs] at hnext ⊢
      obtain ⟨hfs, hcss, hmats⟩ := ih fs hnext
      refine ⟨hfs, by rw [hcss], fun v hv hnv => ?_⟩
      rcases List.mem_cons.mp hv with rfl | hv'
      · exact hmat
      · exact hmats v hv' hnv

theorem pass2_of_matches (net : Net) (cacheRoot : LPath) (urls : List String)
    (fs : FS) (h : ∀ u ∈ urls, matchesB net cacheRoot fs u = true) :
    pass2 net cacheRoot urls fs = (false, fs) := by
  induction urls with
  | nil => rfl
  | cons u rest ih =>
    simp only [pass2]
    rw [download_file_of_matches net cacheRoot fs u
      (h u (List.mem_cons_self u rest))]
    rw [ih (fun v hv => h v (List.mem_cons_of_mem _ hv))]
    rfl

theorem pass2_false_inv (net : Net) (cacheRoot : LPath) (urls : List String)
    (fs : FS) (h : (pass2 net cacheRoot urls fs).1 = false) :
    (pass2 net cacheRoot urls fs).2 = fs ∧
      (∀ u ∈ urls, matchesB net cacheRoot fs u = true) := by
  induction urls generalizing fs with
  | nil => exact ⟨rfl, by simp⟩
  | cons u rest ih =>
    simp only [pass2] at h ⊢
    simp only [Bool.or_eq_false_iff] at h
    obtain ⟨hstep, hnext⟩ := h
    obtain ⟨hsfs, hmat⟩ := download_file_false_inv net cacheRoot fs u hstep
    rw [hsfs] at hnext ⊢
    obtain ⟨hfs, hmats⟩ := ih fs hnext
    refine ⟨hfs, fun v hv => ?_⟩
    rcases List.mem_cons.mp hv with rfl | hv'
    · exact hmat
    · exact hmats v hv'

theorem pass1_read_other (net : Net) (cacheRoot : LPath)
    (urls : List String) (fs : FS) (p : LPath)
    (h : ∀ u ∈ urls, ¬endsWithHtml u = true → safe_path_for_url u cacheRoot ≠ p) :
    fsRead (pass1 net cacheRoot urls fs).2.1 p = fsRead fs p := by
  induction urls generalizing fs with
  | nil => rfl
  | cons u rest ih =>
    simp only [pass1]
    by_cases hu : endsWithHtml u
    · rw [if_pos hu]
      exact ih fs (fun v hv => h v (List.mem_cons_of_mem _ hv))
    · rw [if_neg hu]
      calc fsRead (pass1 net cacheRoot rest
            (download_file net u (safe_path_for_url u cacheRoot) fs).2).2.1 p
          = fsRead (download_file net u (safe_path_for_url u cacheRoot) fs).2 p :=
            ih _ (fun v hv => h v (List.mem_cons_of_mem _ hv))
        _ = fsRead fs p := download_file_read_other net u _ p fs
            (fun hEq => h u (List.mem_cons_self u rest) (by simpa using hu)
              hEq.symm)

theorem pass2_read_other (net : Net) (cacheRoot : LPath)
    (urls : List String) (fs : FS) (p : LPath)
    (h : ∀ u ∈ urls, safe_path_for_url u cacheRoot ≠ p) :
    fsRead (pass2 net cacheRoot urls fs).2 p = fsRead fs p := by
  induction urls generalizing fs with
  | nil => rfl
  | cons u rest ih =>
    simp only [pass2]
    calc fsRead (pass2 net cacheRoot rest
          (download_file net u (safe_path_for_url u cacheRoot) fs).2).2 p
        = fsRead (download_file net u (safe_path_for_url u cacheRoot) fs).2 p :=
          ih _ (fun v hv => h v (List.mem_cons_of_mem _ hv))
      _ = fsRead fs p := download_file_read_other net u _ p fs
          (fun hEq => h u (List.mem_cons_self u rest) hEq.symm)

theorem pass1_preserve (net : Net) (cacheRoot : LPath) (urls : List String)
    (u : String) (s : String) (fs : FS)
    (hs : fsRead fs (safe_path_for_url u cacheRoot) = some s)
    (hn : net u = some s)
    (hinj : ∀ v ∈ urls, ¬endsWithHtml v = true →
      safe_path_for_url v cacheRoot = safe_path_for_url u cacheRoot → v = u) :
    fsRead (pass1 net cacheRoot urls fs).2.1 (safe_path_for_url u cacheRoot) =
      some s := by
  induction urls generalizing fs with
  | nil => exact hs
  | cons v rest ih =>
    simp only [pass1]
    by_cases hv : endsWithHtml v
    · rw [if_pos hv]
      exact ih fs hs (fun w hw => hinj w (List.mem_cons_of_mem _ hw))
    · rw [if_neg hv]
      by_cases hd : safe_path_for_url v cacheRoot = safe_path_for_url u cacheRoot
      · have hveq : v = u :=
          hinj v (List.mem_cons_self v rest) (by simpa using hv) hd
        subst hveq
        have hdl : download_file net v (safe_path_for_url v cacheRoot) fs =
            (false, fs) := by
          unfold download_file
          rw [hn]
          show (if fsRead fs (safe_path_for_url v cacheRoot) = some s then
              (false, fs)
            else (true, fsWrite fs (safe_path_for_url v cacheRoot) s)) =
            (false, fs)
          rw [if_pos hs]
        rw [hdl]
        exact ih fs hs (fun w hw => hinj w (List.mem_cons_of_mem _ hw))
      · have hread : fsRead
            (download_file net v (safe_path_for_url v cacheRoot) fs).2
            (safe_path_for_url u cacheRoot) = some s := by
          rw [download_file_read_other net v _ _ fs (fun hEq => hd hEq.symm)]
          exact hs
        exact ih _ hread (fun w hw => hinj w (List.mem_cons_of_mem _ hw))

theorem pass1_member (net : Net) (cacheRoot : LPath) (urls : List String)
    (u : String) (s : String) (fs : FS)
    (hmem : u ∈ urls) (hu : ¬endsWithHtml u = true) (hn : net u = some s)
    (hinj : ∀ v ∈ urls, ¬endsWithHtml v = true →
      safe_path_for_url v cacheRoot = safe_path_for_url u cacheRoot → v = u) :
    fsRead (pass1 net cacheRoot urls fs).2.1 (safe_path_for_url u cacheRoot) =
      some s := by
  induction urls generalizing fs with
  | nil => cases hmem
  | cons v rest ih =>
    simp only [pass1]
    by_cases hv : endsWithHtml v
    · rw [if_pos hv]
      have hmem' : u ∈ rest := by
        rcases List.mem_cons.mp hmem with rfl | h'
        · exact absurd hv hu
        · exact h'
      exact ih fs hmem' (fun w hw => hinj w (List.mem_cons_of_mem _ hw))
    · rw [if_neg hv]
      by_cases hveq : v = u
      · subst hveq
        exact pass1_preserve net cacheRoot rest v s _
          (download_file_read_dest net v _ fs s hn) hn
          (fun w hw => hinj w (List.mem_cons_of_mem _ hw))
      · have hmem' : u ∈ rest := by
          rcases List.mem_cons.mp hmem with rfl | h'
          · exact absurd rfl hveq
          · exact h'
        exact ih _ hmem' (fun w hw => hinj w (List.mem_cons_of_mem _ hw))

/-- Unfolding of one successful-primary-fetch run of `fetch_snapshot`
(definitional). -/
theorem fetch_snapshot_run_eq (net : Net) (doc : List HtmlEl)
    (cacheRoot : LPath) (target : String) (extra : List String) (fs : FS) :
    fetch_snapshot net (some doc) cacheRoot target extra fs =
      some (⟨(pass1 net cacheRoot (sortedSet (extractAssetList target doc
            ++ extra.map (fun rel => urljoin target rel))) fs).1
          || (pass2 net cacheRoot
                (sortedSet (pass1 net cacheRoot
                  (sortedSet (extractAssetList target doc
                    ++ extra.map (fun rel => urljoin target rel))) fs).2.2)
                (pass1 net cacheRoot (sortedSet (extractAssetList target doc
                  ++ extra.map (fun rel => urljoin target rel))) fs).2.1).1
          || (if fsRead fs (cacheRoot ++ ["index.html"]) ≠
                some (serializeDoc (rewrite_html_to_local target cacheRoot doc))
              then (true,
                fsWrite (pass2 net cacheRoot
                  (sortedSet (pass1 net cacheRoot
                    (sortedSet (extractAssetList target doc
                      ++ extra.map (fun rel => urljoin target rel))) fs).2.2)
                  (pass1 net cacheRoot (sortedSet (extractAssetList target doc
                    ++ extra.map (fun rel => urljoin target rel))) fs).2.1).2
                  (cacheRoot ++ ["index.html"])
                  (serializeDoc (rewrite_html_to_local target cacheRoot doc)))
              else (false,
                (pass2 net cacheRoot
                  (sortedSet (pass1 net cacheRoot
                    (sortedSet (extractAssetList target doc
                      ++ extra.map (fun rel => urljoin target rel))) fs).2.2)
                  (pass1 net cacheRoot (sortedSet (extractAssetList target doc
                    ++ extra.map (fun rel => urljoin target rel))) fs).2.1).2)).1,
          cacheRoot ++ ["index.html"]⟩,
        (if fsRead fs (cacheRoot ++ ["index.html"]) ≠
              some (serializeDoc (rewrite_html_to_local target cacheRoot doc))
          then (true,
            fsWrite (pass2 net cacheRoot
              (sortedSet (pass1 net cacheRoot
                (sortedSet (extractAssetList target doc
                  ++ extra.map (fun rel => urljoin target rel))) fs).2.2)
              (pass1 net cacheRoot (sortedSet (extractAssetList target doc
                ++ extra.map (fun rel => urljoin target rel))) fs).2.1).2
              (cacheRoot ++ ["index.html"])
              (serializeDoc (rewrite_html_to_local target cacheRoot doc)))
          else (false,
            (pass2 net cacheRoot
              (sortedSet (pass1 net cacheRoot
                (sortedSet (extractAssetList target doc
                  ++ extra.map (fun rel => urljoin target rel))) fs).2.2)
              (pass1 net cacheRoot (sortedSet (extractAssetList target doc
                ++ extra.map (fun rel => urljoin target rel))) fs).2.1).2)).2) :=
  rfl

/-- Claim C3: a fetch cycle whose primary fetch succeeds reports
`changed = false` exactly when every first-pass download, and every
second-pass download of the CSS-discovered references (read from the
cache as it stood at the start of the cycle), either fails or fetches
bytes identical to the cached copy, and the rewritten document equals the
previously persisted `index.html` bytes; if any single downloaded asset's
bytes or the persisted document's bytes differ, it reports
`changed = true`. -/
theorem c3_change_detection (net : Net) (doc : List HtmlEl)
    (cacheRoot : LPath) (target : String) (extra : List String) (fs : FS)
    (r : SnapshotResult) (fs' : FS)
    (hrun : fetch_snapshot net (some doc) cacheRoot target extra fs =
      some (r, fs')) :
    r.changed = false ↔
      ((∀ u ∈ sortedSet (extractAssetList target doc
            ++ extra.map (fun rel => urljoin target rel)),
          ¬endsWithHtml u = true → matchesB net cacheRoot fs u = true) ∧
        (∀ u ∈ sortedSet (cssCollectStatic cacheRoot fs
            (sortedSet (extractAssetList target doc
              ++ extra.map (fun rel => urljoin target rel)))),
          matchesB net cacheRoot fs u = true) ∧
        fsRead fs (cacheRoot ++ ["index.html"]) =
          some (serializeDoc (rewrite_html_to_local target cacheRoot doc))) := by
  have hfe := fetch_snapshot_run_eq net doc cacheRoot target extra fs
  rw [hfe, Option.some.injEq, Prod.mk.injEq] at hrun
  obtain ⟨hre, -⟩ := hrun
  rw [← hre]
  constructor
  · intro hch
    simp only [Bool.or_eq_false_iff] at hch
    obtain ⟨⟨h1, h2⟩, h3⟩ := hch
    obtain ⟨hfs1, hcss1, hmat1⟩ := pass1_false_inv net cacheRoot _ fs h1
    rw [hfs1, hcss1] at h2
    obtain ⟨-, hmat2⟩ := pass2_false_inv net cacheRoot _ fs h2
    refine ⟨hmat1, hmat2, ?_⟩
    by_cases hidx : fsRead fs (cacheRoot ++ ["index.html"]) ≠
        some (serializeDoc (rewrite_html_to_local target cacheRoot doc))
    · rw [if_pos hidx] at h3
      simp at h3
    · exact not_not.mp hidx
  · rintro ⟨hm1, hm2, hidx⟩
    rw [pass1_of_matches net cacheRoot _ fs hm1]
    rw [show ((false, fs, cssCollectStatic cacheRoot fs
        (sortedSet (extractAssetList target doc
          ++ extra.map (fun rel => urljoin target rel)))) :
        Bool × FS × List String).2.2 = cssCollectStatic cacheRoot fs
          (sortedSet (extractAssetList target doc
            ++ extra.map (fun rel => urljoin target rel))) from rfl]
    rw [show ((false, fs, cssCollectStatic cacheRoot fs
        (sortedSet (extractAssetList target doc
          ++ extra.map (fun rel => urljoin target rel)))) :
        Bool × FS × List String).2.1 = fs from rfl]
    rw [pass2_of_matches net cacheRoot _ fs hm2]
    rw [if_neg (not_not.mpr hidx)]
    rfl

/-- Witness for `c3_change_detection`: a concrete run over a cache that
already holds everything (one css asset, its font, the rewritten page)
reports `changed = false`, and the right-hand side of the equivalence
holds for it. -/
theorem c3_change_detection_witness :
    (SnapshotResult.mk false (["c"] ++ ["index.html"])).changed = false ↔
      ((∀ u ∈ sortedSet (extractAssetList "http://h/"
            [⟨"link", [("href", "/a.css")], none⟩]
            ++ ([] : List String).map (fun rel => urljoin "http://h/" rel)),
          ¬endsWithHtml u = true →
            matchesB
              (fun u => if u = "http://h/a.css" then some "url(f.woff)"
                else if u = "http://h/f.woff" then some "FONT" else none)
              ["c"]
              [(["c", "index.html"],
                serializeDoc (rewrite_html_to_local "http://h/" ["c"]
                  [⟨"link", [("href", "/a.css")], none⟩])),
               (["c", "f.woff"], "FONT"), (["c", "a.css"], "url(f.woff)")]
              u = true) ∧
        (∀ u ∈ sortedSet (cssCollectStatic ["c"]
            [(["c", "index.html"],
              serializeDoc (rewrite_html_to_local "http://h/" ["c"]
                [⟨"link", [("href", "/a.css")], none⟩])),
             (["c", "f.woff"], "FONT"), (["c", "a.css"], "url(f.woff)")]
            (sortedSet (extractAssetList "http://h/"
              [⟨"link", [("href", "/a.css")], none⟩]
              ++ ([] : List String).map (fun rel => urljoin "http://h/" rel)))),
          matchesB
            (fun u => if u = "http://h/a.css" then some "url(f.woff)"
              else if u = "http://h/f.woff" then some "FONT" else none)
            ["c"]
            [(["c", "index.html"],
              serializeDoc (rewrite_html_to_local "http://h/" ["c"]
                [⟨"link", [("href", "/a.css")], none⟩])),
             (["c", "f.woff"], "FONT"), (["c", "a.css"], "url(f.woff)")]
            u = true) ∧
        fsRead
          [(["c", "index.html"],
            serializeDoc (rewrite_html_to_local "http://h/" ["c"]
              [⟨"link", [("href", "/a.css")], none⟩])),
           (["c", "f.woff"], "FONT"), (["c", "a.css"], "url(f.woff)")]
          (["c"] ++ ["index.html"]) =
          some (serializeDoc (rewrite_html_to_local "http://h/" ["c"]
            [⟨"link", [("href", "/a.css")], none⟩]))) :=
  c3_change_detection
    (fun u => if u = "http://h/a.css" then some "url(f.woff)"
      else if u = "http://h/f.woff" then some "FONT" else none)
    [⟨"link", [("href", "/a.css")], none⟩] ["c"] "http://h/" []
    [(["c", "index.html"],
      serializeDoc (rewrite_html_to_local "http://h/" ["c"]
        [⟨"link", [("href", "/a.css")], none⟩])),
     (["c", "f.woff"], "FONT"), (["c", "a.css"], "url(f.woff)")]
    (SnapshotResult.mk false (["c"] ++ ["index.html"]))
    [(["c", "index.html"],
      serializeDoc (rewrite_html_to_local "http://h/" ["c"]
        [⟨"link", [("href", "/a.css")], none⟩])),
     (["c", "f.woff"], "FONT"), (["c", "a.css"], "url(f.woff)")]
    (by decide)

/-! ### Join/split and dot-resolution lemmas (for claim C6) -/

theorem joinC_cons_cons (c : Char) (s b : List Char)
    (rest : List (List Char)) :
    joinC c (s :: b :: rest) = s ++ c :: joinC c (b :: rest) := rfl

theorem joinC_splitAllC (c : Char) (l : List Char) :
    joinC c (splitAllC c l) = l := by
  induction l with
  | nil => rfl
  | cons x xs ih =>
    rw [splitAllC]
    by_cases hx : x = c
    · rw [if_pos hx, hx]
      cases h : splitAllC c xs with
      | nil => exact absurd h (splitAllC_ne_nil c xs)
      | cons a rest =>
        rw [joinC_cons_cons, List.nil_append, ← h, ih]
    · rw [if_neg hx]
      cases h : splitAllC c xs with
      | nil => exact absurd h (splitAllC_ne_nil c xs)
      | cons a rest =>
        rw [h] at ih
        cases rest with
        | nil =>
          rw [show joinC c [x :: a] = x :: a from rfl]
          rw [show joinC c [a] = a from rfl] at ih
          rw [ih]
        | cons b rest' =>
          rw [show joinC c ((x :: a) :: b :: rest') =
            (x :: a) ++ c :: joinC c (b :: rest') from rfl]
          rw [joinC_cons_cons] at ih
          rw [List.cons_append, ih]

theorem mem_joinC {c : Char} {L : List (List Char)} {x : Char}
    (h : x ∈ joinC c L) : x = c ∨ ∃ s ∈ L, x ∈ s := by
  induction L with
  | nil => simp [joinC] at h
  | cons s rest ih =>
    cases rest with
    | nil => exact Or.inr ⟨s, by simp, by simpa [joinC] using h⟩
    | cons b rest' =>
      rw [joinC_cons_cons] at h
      rcases List.mem_append.mp h with h | h
      · exact Or.inr ⟨s, by simp, h⟩
      · rcases List.mem_cons.mp h with h | h
        · exact Or.inl h
        · rcases ih h with h | ⟨t, ht, hx⟩
          · exact Or.inl h
          · exact Or.inr ⟨t, List.mem_cons_of_mem _ ht, hx⟩

theorem splitAllC_of_nmem {c : Char} {l : List Char} (h : c ∉ l) :
    splitAllC c l = [l] := by
  induction l with
  | nil => rfl
  | cons x xs ih =>
    rw [splitAllC, if_neg (fun hx => h (by simp [hx])),
      ih (fun hm => h (List.mem_cons_of_mem _ hm))]

theorem joinC_head (c : Char) (c' : Char) (s' : List Char)
    (rest : List (List Char)) :
    ∃ t, joinC c ((c' :: s') :: rest) = c' :: t := by
  cases rest with
  | nil => exact ⟨s', rfl⟩
  | cons b bs => exact ⟨s' ++ c :: joinC c (b :: bs), rfl⟩

theorem foldl_resolve_append (segs : List (List Char)) :
    (∀ s ∈ segs, s ≠ ['.'] ∧ s ≠ ['.', '.']) → ∀ acc,
    segs.foldl (fun acc seg => if seg = ['.', '.'] then acc.dropLast
      else if seg = ['.'] then acc else acc ++ [seg]) acc = acc ++ segs := by
  induction segs with
  | nil => intro _ acc; simp
  | cons s rest ih =>
    intro h acc
    rw [List.foldl_cons]
    have hs := h s (List.mem_cons_self s rest)
    rw [if_neg hs.2, if_neg hs.1,
      ih (fun t ht => h t (List.mem_cons_of_mem _ ht)) (acc ++ [s])]
    simp

theorem resolveSegs_no_dots (segs : List (List Char))
    (h : ∀ s ∈ segs, s ≠ ['.'] ∧ s ≠ ['.', '.']) :
    resolveSegs segs = segs := by
  unfold resolveSegs
  rw [foldl_resolve_append segs h []]
  simp

theorem getLast?_cons_of_ne_nil {α : Type} (a : α) {l : List α}
    (h : l ≠ []) : (a :: l).getLast? = l.getLast? := by
  cases l with
  | nil => exact absurd rfl h
  | cons b bs => simp [List.getLast?, List.getLastD_cons]

theorem joinC_concat (c : Char) (init : List (List Char)) (s : List Char) :
    joinC c (init ++ [s]) =
      if init = [] then s else joinC c init ++ c :: s := by
  induction init with
  | nil => simp [joinC]
  | cons t rest ih =>
    rw [if_neg (by simp)]
    cases rest with
    | nil => simp [joinC_cons_cons, joinC]
    | cons b bs =>
      rw [show t :: (b :: bs) ++ [s] = t :: (b :: (bs ++ [s])) from by simp,
        joinC_cons_cons c t b (bs ++ [s]),
        show (b :: (bs ++ [s])) = (b :: bs) ++ [s] from by simp, ih,
        if_neg (by simp), joinC_cons_cons]
      simp

theorem rev_joinC_last (c : Char) (init : List (List Char)) (s : List Char) :
    ∃ t, (c :: joinC c (init ++ [s])).reverse = s.reverse ++ c :: t := by
  rw [joinC_concat]
  by_cases hinit : init = []
  · rw [if_pos hinit]
    exact ⟨[], by simp⟩
  · rw [if_neg hinit]
    refine ⟨(joinC c init).reverse ++ [c], ?_⟩
    simp

theorem takeWhile_rev_seg (c : Char) (s t : List Char) (hs : c ∉ s) :
    (s.reverse ++ c :: t).takeWhile (· ≠ c) = s.reverse := by
  rw [takeWhile_append_of_all _ (by
      rw [List.all_eq_true]
      intro x hx
      simp only [decide_eq_true_eq]
      exact fun hEq => hs (by rw [← hEq]; simpa using hx)),
    List.takeWhile_cons_of_neg (by simp)]
  simp

theorem splitParamsC_of_clean (rel : List (List Char)) (lastSeg : List Char)
    (hlast : rel.getLast? = some lastSeg)
    (hslash : ∀ s ∈ rel, '/' ∉ s) (hsemi : ';' ∉ lastSeg) :
    splitParamsC ('/' :: joinC '/' rel) = ('/' :: joinC '/' rel, []) := by
  by_cases hs : ';' ∈ '/' :: joinC '/' rel
  · obtain ⟨init, rfl⟩ : ∃ init, rel = init ++ [lastSeg] := by
      rcases List.getLast?_eq_some_iff.mp hlast with ⟨init, h⟩
      exact ⟨init, h⟩
    obtain ⟨t, ht⟩ := rev_joinC_last '/' init lastSeg
    unfold splitParamsC
    rw [if_pos hs, if_pos (by simp)]
    simp only [ht, takeWhile_rev_seg '/' lastSeg t
      (hslash lastSeg (by simp)), List.reverse_reverse]
    rw [splitOnceC_eq_none.mpr hsemi]
  · unfold splitParamsC
    rw [if_neg hs]

/-- Conditions on a segment list making `/seg1/.../segn` a clean local
reference for the parser lemmas. -/
theorem relOK_props (rel : List (List Char)) (h : relOK rel = true) :
    rel ≠ [] ∧
      (∀ s ∈ rel, s ≠ [] ∧ s ≠ ['.'] ∧ s ≠ ['.', '.'] ∧
        ∀ x ∈ s, ¬x = '/' ∧ ¬x = '?' ∧ ¬x = '#' ∧ ¬unsafeUrlChar x = true) ∧
      (∀ lastSeg, rel.getLast? = some lastSeg →
        ';' ∉ lastSeg ∧ hasSuffixC lastSeg = true) := by
  unfold relOK at h
  cases hL : rel.getLast? with
  | none => rw [hL] at h; simp at h
  | some lastSeg =>
    rw [hL] at h
    simp only [Bool.and_eq_true] at h
    obtain ⟨⟨hall, hsemi⟩, hsuf⟩ := h
    refine ⟨?_, ?_, ?_⟩
    · intro hEq
      rw [hEq] at hL
      simp at hL
    · intro s hsm
      have hs := (List.all_eq_true.mp hall) s hsm
      unfold relSegOK at hs
      simp only [Bool.and_eq_true, decide_eq_true_eq, List.all_eq_true,
        Bool.not_eq_true', Bool.or_eq_true, beq_iff_eq, Bool.not_eq_true] at hs
      obtain ⟨⟨⟨h1, h2⟩, h3⟩, h4⟩ := hs
      refine ⟨h1, h2, h3, fun x hx => ?_⟩
      have := h4 x hx
      simp only [Bool.or_eq_false_iff, beq_eq_false_iff_ne, ne_eq] at this
      exact ⟨this.1.1.1, this.1.1.2, this.1.2, by simp [this.2]⟩
    · intro l hl
      obtain rfl : lastSeg = l := by simpa using hl
      refine ⟨fun hm => ?_, hsuf⟩
      have := (List.all_eq_true.mp hsemi) ';' hm
      simp at this

/-- Parsing a clean absolute-from-root reference `/seg1/.../segn` yields
no scheme change, no netloc, the whole text as path, and nothing else. -/
theorem urlparseC_local_path (dflt : List Char) (rel : List (List Char))
    (h : relOK rel = true) :
    urlparseC dflt ('/' :: joinC '/' rel) =
      ⟨dflt, [], '/' :: joinC '/' rel, [], [], []⟩ := by
  obtain ⟨hne, hseg, hlast⟩ := relOK_props rel h
  have hmem : ∀ x ∈ '/' :: joinC '/' rel,
      ¬x = '?' ∧ ¬x = '#' ∧ ¬unsafeUrlChar x = true := by
    intro x hx
    rcases List.mem_cons.mp hx with rfl | hx
    · exact ⟨by decide, by decide, by decide⟩
    · rcases mem_joinC hx with rfl | ⟨s, hsm, hxs⟩
      · exact ⟨by decide, by decide, by decide⟩
      · have := (hseg s hsm).2.2.2 x hxs
        exact ⟨this.2.1, this.2.2.1, this.2.2.2⟩
  have h0 : ((('/' :: joinC '/' rel).dropWhile c0OrSpace).filter
      (fun c => !unsafeUrlChar c)) = '/' :: joinC '/' rel := by
    rw [List.dropWhile_cons_of_neg (by decide),
      List.filter_eq_self.mpr (fun x hx => by
        simp only [Bool.not_eq_true']
        have := (hmem x hx).2.2
        simpa using this)]
  have h1 : schemeSplit dflt ('/' :: joinC '/' rel) =
      (dflt, '/' :: joinC '/' rel) :=
    schemeSplit_eq_of_notalpha dflt (by
      rw [show (('/' :: joinC '/' rel).head?.getD '/') = '/' from rfl]
      decide)
  have h2 : netlocSplit ('/' :: joinC '/' rel) = ([], '/' :: joinC '/' rel) := by
    refine netlocSplit_eq_of_no_slashes ?_
    obtain ⟨s, rest, rfl⟩ : ∃ s rest, rel = s :: rest := by
      cases rel with
      | nil => exact absurd rfl hne
      | cons s rest => exact ⟨s, rest, rfl⟩
    obtain ⟨c', s', rfl⟩ : ∃ c' s', s = c' :: s' := by
      cases hcs : s with
      | nil => exact absurd (hcs ▸ (hseg s (by simp [hcs])).1) (by simp [hcs])
      | cons c' s' => exact ⟨c', s', rfl⟩
    obtain ⟨t, ht⟩ := joinC_head '/' c' s' rest
    rw [ht]
    have hc' : ¬c' = '/' :=
      ((hseg (c' :: s') (by simp)).2.2.2 c' (by simp)).1
    simp [List.take, hc']
  have h3 : splitOnceC '#' ('/' :: joinC '/' rel) = none :=
    splitOnceC_eq_none.mpr (fun hm => (hmem '#' hm).2.1 rfl)
  have h4 : splitOnceC '?' ('/' :: joinC '/' rel) = none :=
    splitOnceC_eq_none.mpr (fun hm => (hmem '?' hm).1 rfl)
  have h5 : splitParamsC ('/' :: joinC '/' rel) =
      ('/' :: joinC '/' rel, []) := by
    cases hL : rel.getLast? with
    | none =>
      exact absurd hL (by
        cases rel with
        | nil => exact absurd rfl hne
        | cons s rest => simp [List.getLast?_eq_none_iff])
    | some lastSeg =>
      exact splitParamsC_of_clean rel lastSeg hL
        (fun s hsm hm => ((hseg s hsm).2.2.2 '/' hm).1 rfl)
        (hlast lastSeg hL).1
  unfold urlparseC
  rw [h0]
  simp only [urlparseCore, h1, h2, h3, h4, h5]

/-- Parsing `scheme://netloc/seg1/.../segn` for a clean scheme, netloc
and reference recovers exactly those components. -/
theorem urlparseC_abs (bs bn : List Char) (rel : List (List Char))
    (hbs : bs ≠ []) (hbsa : (bs.head?.getD ' ').isAlpha = true)
    (hbsc : bs.all schemeChar = true)
    (hbsu : bs.all (fun c => !unsafeUrlChar c && !c0OrSpace c && !(c == ':')) = true)
    (hbn : bn ≠ [])
    (hbnc : bn.all
      (fun c => !(c == '/' || c == '?' || c == '#' || unsafeUrlChar c)) = true)
    (h : relOK rel = true) :
    urlparseC [] (bs ++ ':' :: '/' :: '/' :: (bn ++ '/' :: joinC '/' rel)) =
      ⟨bs.map Char.toLower, bn, '/' :: joinC '/' rel, [], [], []⟩ := by
  obtain ⟨hne, hseg, hlast⟩ := relOK_props rel h
  obtain ⟨c0, bs', rfl⟩ : ∃ c0 bs', bs = c0 :: bs' := by
    cases bs with
    | nil => exact absurd rfl hbs
    | cons c0 bs' => exact ⟨c0, bs', rfl⟩
  have hmemv : ∀ x ∈ '/' :: joinC '/' rel,
      ¬x = '?' ∧ ¬x = '#' ∧ ¬unsafeUrlChar x = true := by
    intro x hx
    rcases List.mem_cons.mp hx with rfl | hx
    · exact ⟨by decide, by decide, by decide⟩
    · rcases mem_joinC hx with rfl | ⟨s, hsm, hxs⟩
      · exact ⟨by decide, by decide, by decide⟩
      · have := (hseg s hsm).2.2.2 x hxs
        exact ⟨this.2.1, this.2.2.1, this.2.2.2⟩
  have hbnu : ∀ x ∈ bn, ¬x = '/' ∧ ¬x = '?' ∧ ¬x = '#' ∧
      ¬unsafeUrlChar x = true := by
    intro x hx
    have := (List.all_eq_true.mp hbnc) x hx
    simp only [Bool.not_eq_true', Bool.or_eq_false_iff, beq_eq_false_iff_ne,
      ne_eq] at this
    exact ⟨this.1.1.1, this.1.1.2, this.1.2, by simp [this.2]⟩
  have hbsuP : ∀ x ∈ c0 :: bs', ¬unsafeUrlChar x = true ∧
      ¬c0OrSpace x = true ∧ ¬x = ':' := by
    intro x hx
    have := (List.all_eq_true.mp hbsu) x hx
    simp only [Bool.and_eq_true, Bool.not_eq_true', beq_iff_eq,
      Bool.not_eq_true] at this
    refine ⟨by simp [this.1.1], by simp [this.1.2], ?_⟩
    have h3 := this.2
    intro hEq
    rw [hEq] at h3
    simp at h3
  have h0 : (((c0 :: bs' ++ ':' :: '/' :: '/' ::
      (bn ++ '/' :: joinC '/' rel)).dropWhile c0OrSpace).filter
      (fun c => !unsafeUrlChar c)) =
      c0 :: bs' ++ ':' :: '/' :: '/' :: (bn ++ '/' :: joinC '/' rel) := by
    rw [show (c0 :: bs' ++ ':' :: '/' :: '/' ::
        (bn ++ '/' :: joinC '/' rel)) = c0 :: (bs' ++ ':' :: '/' :: '/' ::
        (bn ++ '/' :: joinC '/' rel)) from rfl]
    rw [List.dropWhile_cons_of_neg
      (by simpa using (hbsuP c0 (by simp)).2.1)]
    rw [List.filter_eq_self.mpr]
    intro x hx
    simp only [Bool.not_eq_true']
    rcases List.mem_cons.mp hx with rfl | hx
    · simpa using (hbsuP x (by simp)).1
    · rcases List.mem_append.mp hx with hx | hx
      · simpa using (hbsuP x (by simp [hx])).1
      · rcases List.mem_cons.mp hx with rfl | hx
        · decide
        · rcases List.mem_cons.mp hx with rfl | hx
          · decide
          · rcases List.mem_cons.mp hx with rfl | hx
            · decide
            · rcases List.mem_append.mp hx with hx | hx
              · simpa using (hbnu x hx).2.2.2
              · simpa using (hmemv x hx).2.2
  have hsplit : splitOnceC ':' (c0 :: bs' ++ ':' :: '/' :: '/' ::
      (bn ++ '/' :: joinC '/' rel)) =
      some (c0 :: bs', '/' :: '/' :: (bn ++ '/' :: joinC '/' rel)) := by
    rw [splitOnceC_append_right _ (fun hm => (hbsuP ':' hm).2.2 rfl),
      show splitOnceC ':' (':' :: '/' :: '/' :: (bn ++ '/' :: joinC '/' rel)) =
        some ([], '/' :: '/' :: (bn ++ '/' :: joinC '/' rel)) from by
        rw [splitOnceC]; simp]
    simp
  have h1 : schemeSplit [] (c0 :: bs' ++ ':' :: '/' :: '/' ::
      (bn ++ '/' :: joinC '/' rel)) =
      ((c0 :: bs').map Char.toLower,
        '/' :: '/' :: (bn ++ '/' :: joinC '/' rel)) := by
    rw [schemeSplit_eq_of_some [] (by simpa using hbsa) hsplit,
      if_pos ⟨by simp, hbsc⟩]
  have h2 : netlocSplit ('/' :: '/' :: (bn ++ '/' :: joinC '/' rel)) =
      (bn, '/' :: joinC '/' rel) := by
    rw [netlocSplit_eq_of_slashes (by simp [List.take])]
    rw [show ('/' :: '/' :: (bn ++ '/' :: joinC '/' rel)).drop 2 =
      bn ++ '/' :: joinC '/' rel from rfl]
    rw [takeWhile_append_of_all _ (by
        rw [List.all_eq_true]
        intro x hx
        unfold nonDelim
        have := hbnu x hx
        simp [this.1, this.2.1, this.2.2.1]),
      dropWhile_append_of_all _ (by
        rw [List.all_eq_true]
        intro x hx
        unfold nonDelim
        have := hbnu x hx
        simp [this.1, this.2.1, this.2.2.1]),
      List.takeWhile_cons_of_neg (by decide),
      List.dropWhile_cons_of_neg (by decide)]
    simp
  have h3 : splitOnceC '#' ('/' :: joinC '/' rel) = none :=
    splitOnceC_eq_none.mpr (fun hm => (hmemv '#' hm).2.1 rfl)
  have h4 : splitOnceC '?' ('/' :: joinC '/' rel) = none :=
    splitOnceC_eq_none.mpr (fun hm => (hmemv '?' hm).1 rfl)
  have h5 : splitParamsC ('/' :: joinC '/' rel) =
      ('/' :: joinC '/' rel, []) := by
    cases hL : rel.getLast? with
    | none =>
      exact absurd hL (by
        cases rel with
        | nil => exact absurd rfl hne
        | cons s rest => simp [List.getLast?_eq_none_iff])
    | some lastSeg =>
      exact splitParamsC_of_clean rel lastSeg hL
        (fun s hsm hm => ((hseg s hsm).2.2.2 '/' hm).1 rfl)
        (hlast lastSeg hL).1
  unfold urlparseC
  rw [h0]
  simp only [urlparseCore, h1, h2, h3, h4, h5]

/-- Unpacking of `baseOK` into the properties of the base URL's parse. -/
theorem baseOK_props (base : String) (h : baseOK base = true) :
    base.data ≠ [] ∧
      (urlparseC [] base.data).scheme ≠ [] ∧
      ((urlparseC [] base.data).scheme.head?.getD ' ').isAlpha = true ∧
      (urlparseC [] base.data).scheme.all schemeChar = true ∧
      (urlparseC [] base.data).scheme.all
        (fun c => !unsafeUrlChar c && !c0OrSpace c && !(c == ':')) = true ∧
      (urlparseC [] base.data).scheme ∈ usesRelative ∧
      (urlparseC [] base.data).scheme ∈ usesNetloc ∧
      (urlparseC [] base.data).netloc ≠ [] ∧
      (urlparseC [] base.data).netloc ≠ ['.'] ∧
      (urlparseC [] base.data).netloc.all
        (fun c => !(c == '/' || c == '?' || c == '#' || unsafeUrlChar c)) =
        true := by
  unfold baseOK at h
  simp only [Bool.and_eq_true, decide_eq_true_eq] at h
  obtain ⟨⟨⟨⟨⟨⟨⟨⟨⟨h1, h2⟩, h3⟩, h4⟩, h5⟩, h6⟩, h7⟩, h8⟩, h9⟩, h10⟩ := h
  refine ⟨?_, h2, h3, h4, h5, h6, h7, h8, h9, h10⟩
  intro hd
  exact h1 (String.ext (hd.trans rfl))

/-- `urlunparse` of scheme, non-empty netloc and a `/`-led path with no
params, query or fragment is `scheme://netloc<path>`. -/
theorem urlunparseC_simple (scheme netloc path : List Char)
    (hs : scheme ≠ []) (hn : netloc ≠ []) (hp : path.head? = some '/') :
    urlunparseC ⟨scheme, netloc, path, [], [], []⟩ =
      scheme ++ ':' :: '/' :: '/' :: (netloc ++ path) := by
  obtain ⟨c, cs, rfl⟩ : ∃ c cs, path = c :: cs := by
    cases path with
    | nil => simp at hp
    | cons c cs => exact ⟨c, cs, rfl⟩
  obtain rfl : c = '/' := by simpa using hp
  unfold urlunparseC urlunsplitC
  simp [hs, hn]

/-- `urljoin` of an ordinary absolute base with a clean root-relative
reference `/seg1/.../segn`: the base contributes its scheme and host, the
reference keeps its path. -/
theorem urljoinC_base_local (base : List Char) (rel : List (List Char))
    (hbne : base ≠ [])
    (hbs : (urlparseC [] base).scheme ≠ [])
    (hbn : (urlparseC [] base).netloc ≠ [])
    (hbrel : (urlparseC [] base).scheme ∈ usesRelative)
    (hbnet : (urlparseC [] base).scheme ∈ usesNetloc)
    (hsplit : splitAllC '/' (joinC '/' rel) = rel)
    (h : relOK rel = true) :
    urljoinC base ('/' :: joinC '/' rel) =
      (urlparseC [] base).scheme ++ ':' :: '/' :: '/' ::
        ((urlparseC [] base).netloc ++ '/' :: joinC '/' rel) := by
  obtain ⟨hne, hseg, hlast⟩ := relOK_props rel h
  obtain ⟨lastSeg, hL⟩ : ∃ l, rel.getLast? = some l := by
    cases hgl : rel.getLast? with
    | none => exact absurd (List.getLast?_eq_none_iff.mp hgl) hne
    | some l => exact ⟨l, rfl⟩
  have hlmem : lastSeg ∈ rel := by
    rcases List.getLast?_eq_some_iff.mp hL with ⟨init, hinit⟩
    rw [hinit]
    simp
  have hune : ¬('/' :: joinC '/' rel = []) := by simp
  have hu' : urlparseC (urlparseC [] base).scheme ('/' :: joinC '/' rel) =
      ⟨(urlparseC [] base).scheme, [], '/' :: joinC '/' rel, [], [], []⟩ :=
    urlparseC_local_path _ rel h
  have hsegsplit : splitAllC '/' ('/' :: joinC '/' rel) = [] :: rel := by
    nth_rewrite 2 [← hsplit]
    generalize joinC '/' rel = L
    cases L with
    | nil => rfl
    | cons x xs => rfl
  have hresolved : resolveSegs ([] :: rel) = [] :: rel := by
    refine resolveSegs_no_dots _ ?_
    intro s hs
    rcases List.mem_cons.mp hs with rfl | hs
    · exact ⟨by simp, by simp⟩
    · exact ⟨(hseg s hs).2.1, (hseg s hs).2.2.1⟩
  have hlastcond : ¬(([] :: rel).getLast? = some ['.'] ∨
      ([] :: rel).getLast? = some ['.', '.']) := by
    rw [getLast?_cons_of_ne_nil [] hne, hL]
    intro hc
    rcases hc with hc | hc <;> injection hc with hc
    · exact (hseg lastSeg hlmem).2.1 hc
    · exact (hseg lastSeg hlmem).2.2.1 hc
  have hjoincons : joinC '/' ([] :: rel) = '/' :: joinC '/' rel := by
    cases rel with
    | nil => exact absurd rfl hne
    | cons b bs => simp [joinC_cons_cons]
  have hnn : ¬¬(True ∧ (urlparseC [] base).scheme ∈ usesRelative) :=
    not_not_intro ⟨trivial, hbrel⟩
  have hnonet : ¬((urlparseC [] base).scheme ∈ usesNetloc ∧
      ([] : List Char) ≠ []) := by
    rintro ⟨-, hx⟩
    exact hx rfl
  have hpne : ¬('/' :: joinC '/' rel = [] ∧ True) := by
    rintro ⟨hx, -⟩
    exact hune hx
  unfold urljoinC
  rw [if_neg hbne, if_neg hune]
  simp only [hu']
  rw [if_neg hnn, if_neg hnonet, if_pos hbnet, if_neg hpne,
    if_pos (show ('/' :: joinC '/' rel).head? = some '/' from rfl),
    hsegsplit, hresolved, if_neg hlastcond, hjoincons, if_neg hune,
    urlunparseC_simple (urlparseC [] base).scheme (urlparseC [] base).netloc
      ('/' :: joinC '/' rel) hbs hbn rfl]

/-- The Path Mapper inverts the rewriter's URL assembly: mapping
`scheme://netloc/seg1/.../segn` with a clean reference recovers exactly the
reference's segments. -/
theorem safeRelC_abs (bs bn : List Char) (rel : List (List Char))
    (hbs : bs ≠ []) (hbsa : (bs.head?.getD ' ').isAlpha = true)
    (hbsc : bs.all schemeChar = true)
    (hbsu : bs.all (fun c => !unsafeUrlChar c && !c0OrSpace c && !(c == ':')) = true)
    (hbn : bn ≠ []) (hbndot : bn ≠ ['.'])
    (hbnc : bn.all
      (fun c => !(c == '/' || c == '?' || c == '#' || unsafeUrlChar c)) = true)
    (hsplit : splitAllC '/' (joinC '/' rel) = rel)
    (h : relOK rel = true) :
    safeRelC (bs ++ ':' :: '/' :: '/' :: (bn ++ '/' :: joinC '/' rel)) = rel := by
  obtain ⟨hne, hseg, hlast⟩ := relOK_props rel h
  have hparse := urlparseC_abs bs bn rel hbs hbsa hbsc hbsu hbn hbnc h
  have hnoslash : '/' ∉ bn := by
    intro hm
    have := (List.all_eq_true.mp hbnc) '/' hm
    simp at this
  have h1 : pathSegsC bn = [bn] := by
    unfold pathSegsC
    rw [splitAllC_of_nmem hnoslash]
    simp [hbn, hbndot]
  have hheadrel : ∃ c' t, joinC '/' rel = c' :: t ∧ ¬c' = '/' := by
    obtain ⟨s, rest0, rfl⟩ : ∃ s rest0, rel = s :: rest0 := by
      cases rel with
      | nil => exact absurd rfl hne
      | cons s rest0 => exact ⟨s, rest0, rfl⟩
    obtain ⟨c', s', rfl⟩ : ∃ c' s', s = c' :: s' := by
      cases hcs : s with
      | nil => exact absurd hcs (hseg s (by simp [hcs])).1
      | cons c' s' => exact ⟨c', s', rfl⟩
    obtain ⟨t, ht⟩ := joinC_head '/' c' s' rest0
    exact ⟨c', t, ht, ((hseg (c' :: s') (by simp)).2.2.2 c' (by simp)).1⟩
  have h2 : (('/' :: joinC '/' rel).dropWhile (· = '/')) = joinC '/' rel := by
    rw [List.dropWhile_cons_of_pos (by simp)]
    obtain ⟨c', t, hct, hc'⟩ := hheadrel
    rw [hct, List.dropWhile_cons_of_neg (by simp [hc']), ← hct]
  have h3 : pathSegsC (joinC '/' rel) = rel := by
    unfold pathSegsC
    rw [hsplit]
    refine List.filter_eq_self.mpr ?_
    intro s hs
    simp [(hseg s hs).1, (hseg s hs).2.1]
  obtain ⟨lastSeg, hgl, hsuf⟩ :
      ∃ l, rel.getLast? = some l ∧ hasSuffixC l = true := by
    cases hgl : rel.getLast? with
    | none => exact absurd (List.getLast?_eq_none_iff.mp hgl) hne
    | some l => exact ⟨l, rfl, (hlast l hgl).2⟩
  have h4 : finalizeC rel = rel := by
    unfold finalizeC
    rw [if_neg hne]
    show (match rel.getLast? with
      | some s => if hasSuffixC s = true then rel
          else rel.dropLast ++ [s ++ ".html".data]
      | none => rel) = rel
    rw [hgl]
    show (if hasSuffixC lastSeg = true then rel
      else rel.dropLast ++ [lastSeg ++ ".html".data]) = rel
    rw [if_pos hsuf]
  unfold safeRelC
  rw [hparse]
  simp only []
  rw [h1, h2, h3]
  exact h4

/-- Reference fixpoint of the rewriter: resolving a clean local reference
against an ordinary base, mapping it through the Path Mapper and
converting back to a server path returns the original reference. -/
theorem rewrite_ref_fixpoint (base u : String) (cacheRoot : List String)
    (hb : baseOK base = true) (hu : localRefOK u = true) :
    toRel cacheRoot (safe_path_for_url (urljoin base u) cacheRoot) = u := by
  obtain ⟨rest, hud, hrelOK⟩ : ∃ rest, u.data = '/' :: rest ∧
      relOK (splitAllC '/' rest) = true := by
    unfold localRefOK at hu
    split at hu
    · rename_i rest heq
      exact ⟨rest, heq, hu⟩
    · exact absurd hu (by decide)
  have hjoin : joinC '/' (splitAllC '/' rest) = rest := joinC_splitAllC '/' rest
  have hsplit : splitAllC '/' (joinC '/' (splitAllC '/' rest)) =
      splitAllC '/' rest := by rw [hjoin]
  have hudata : u.data = '/' :: joinC '/' (splitAllC '/' rest) := by
    rw [hud, hjoin]
  obtain ⟨hbne, hbs, hbsa, hbsc, hbsu, hbrel, hbnet, hbn, hbndot, hbnc⟩ :=
    baseOK_props base hb
  have hj : urljoinC base.data u.data =
      (urlparseC [] base.data).scheme ++ ':' :: '/' :: '/' ::
        ((urlparseC [] base.data).netloc ++ '/' ::
          joinC '/' (splitAllC '/' rest)) := by
    rw [hudata]
    exact urljoinC_base_local base.data (splitAllC '/' rest) hbne hbs hbn
      hbrel hbnet hsplit hrelOK
  have hsafe : safeRelC (urljoinC base.data u.data) = splitAllC '/' rest := by
    rw [hj]
    exact safeRelC_abs _ _ _ hbs hbsa hbsc hbsu hbn hbndot hbnc hsplit hrelOK
  unfold toRel safe_path_for_url safeRel urljoin
  rw [show (String.mk (urljoinC base.data u.data)).data =
      urljoinC base.data u.data from rfl, hsafe, List.drop_left,
    List.map_map, show String.data ∘ String.mk = id from rfl, List.map_id,
    hjoin, ← hud]

/-- The attribute-replacing map is the identity when no entry has the key. -/
theorem map_if_not_key (attrs : List (String × String)) (a v : String)
    (h : ∀ q ∈ attrs, ¬(q.1 = a)) :
    attrs.map (fun p => if p.1 = a then (p.1, v) else p) = attrs := by
  induction attrs with
  | nil => rfl
  | cons q rest ih =>
    rw [List.map_cons, if_neg (h q (by simp)),
      ih (fun r hr => h r (List.mem_cons_of_mem _ hr))]

/-- Re-setting an attribute to the value it already has leaves the
attribute dict unchanged (attribute keys are unique in BeautifulSoup). -/
theorem attrs_map_set_eq (attrs : List (String × String)) (a u : String)
    (hnd : (attrs.map Prod.fst).Nodup)
    (hget : (attrs.find? (fun p => p.1 == a)).map Prod.snd = some u) :
    attrs.map (fun p => if p.1 = a then (p.1, u) else p) = attrs := by
  induction attrs with
  | nil => simp at hget
  | cons p rest ih =>
    rw [List.map_cons] at hnd
    obtain ⟨hp1, hndr⟩ := List.nodup_cons.mp hnd
    by_cases hp : p.1 = a
    · have hfind : (p :: rest).find? (fun q => q.1 == a) = some p :=
        List.find?_cons_of_pos _ (by simp [hp])
      rw [hfind] at hget
      obtain rfl : p.2 = u := by simpa using hget
      rw [List.map_cons, if_pos hp]
      have hnot : ∀ q ∈ rest, ¬(q.1 = a) := by
        intro q hq hqa
        exact hp1 (by rw [hp, ← hqa]; exact List.mem_map_of_mem _ hq)
      rw [map_if_not_key rest a p.2 hnot]
    · have hfind : (p :: rest).find? (fun q => q.1 == a) =
          rest.find? (fun q => q.1 == a) :=
        List.find?_cons_of_neg _ (by simp [hp])
      rw [hfind] at hget
      rw [List.map_cons, if_neg hp, ih hndr hget]

/-- Setting an attribute to its current value is the identity. -/
theorem setAttr_eq_self (el : HtmlEl) (a u : String)
    (hnd : (el.attrs.map Prod.fst).Nodup) (hget : getAttr el a = some u) :
    setAttr el a u = el := by
  unfold getAttr at hget
  unfold setAttr
  rw [attrs_map_set_eq el.attrs a u hnd hget]

/-- One rewriting rule is the identity on an element whose attribute is
already a clean local reference. -/
theorem rewriteOne_eq_self (base : String) (cacheRoot : List String)
    (t a : String) (el : HtmlEl)
    (hb : baseOK base = true)
    (hnd : (el.attrs.map Prod.fst).Nodup)
    (hloc : el.tag = t → attrLocalOK el a = true) :
    rewriteOne base cacheRoot t a el = el := by
  unfold rewriteOne
  by_cases ht : el.tag = t
  · rw [if_pos ht]
    have hloc' := hloc ht
    unfold attrLocalOK at hloc'
    cases hget : getAttr el a with
    | none =>
      rfl
    | some u =>
      rw [hget] at hloc'
      have hor : (u == "" || localRefOK u) = true := hloc'
      show (if u = "" then el else
        setAttr el a (toRel cacheRoot
          (safe_path_for_url (urljoin base u) cacheRoot))) = el
      by_cases hu : u = ""
      · rw [if_pos hu]
      · rw [if_neg hu]
        have hlocu : localRefOK u = true := by
          simp only [Bool.or_eq_true, beq_iff_eq] at hor
          rcases hor with h | h
          · exact absurd h hu
          · exact h
        rw [rewrite_ref_fixpoint base u cacheRoot hb hlocu]
        exact setAttr_eq_self el a u hnd hget
  · rw [if_neg ht]

/-- The rewriter is the identity on an element whose rewritable attribute
is already a clean local reference. -/
theorem rewriteEl_eq_self (base : String) (cacheRoot : List String)
    (el : HtmlEl) (hb : baseOK base = true)
    (hnd : (el.attrs.map Prod.fst).Nodup)
    (hhref : el.tag = "link" → attrLocalOK el "href" = true)
    (hsrc1 : el.tag = "script" → attrLocalOK el "src" = true)
    (hsrc2 : el.tag = "img" → attrLocalOK el "src" = true) :
    rewriteEl base cacheRoot el = el := by
  unfold rewriteEl
  rw [rewriteOne_eq_self base cacheRoot "link" "href" el hb hnd hhref,
    rewriteOne_eq_self base cacheRoot "script" "src" el hb hnd hsrc1,
    rewriteOne_eq_self base cacheRoot "img" "src" el hb hnd hsrc2]

/-- Claim C6 counterexample: rewriting is NOT idempotent in general.  For
a document whose `img[src]` URL contains a `..` segment, the first rewrite
stores the unresolved `/../x.png` server path, and rewriting the result
again resolves the `..` and yields a different document. -/
theorem c6_counterexample :
    rewrite_html_to_local "http://h.com/" ["c"]
      (rewrite_html_to_local "http://h.com/" ["c"]
        [⟨"img", [("src", "http://h.com/../x.png")], none⟩]) ≠
      rewrite_html_to_local "http://h.com/" ["c"]
        [⟨"img", [("src", "http://h.com/../x.png")], none⟩] := by
  decide

/-- Claim C6 (amended): rewriting IS a fixpoint — hence byte-identical
output and no `changed` flag from the document on a second run — on every
document that is already its own output in the ordinary sense: a `<base>`
element is present, attribute keys are unique, and every `link[href]`,
`script[src]` and `img[src]` value is a clean absolute-from-root local
path (non-empty dot-free delimiter-free segments, the last one carrying a
file extension), for any ordinary absolute base URL.  It is not idempotent
on arbitrary documents (see the counterexample). -/
theorem c6_rewrite_fixpoint (base : String) (cacheRoot : List String)
    (doc : List HtmlEl)
    (hb : baseOK base = true)
    (hbase : doc.any (fun el => el.tag == "base") = true)
    (hdoc : ∀ el ∈ doc, (el.attrs.map Prod.fst).Nodup ∧
      (el.tag = "link" → attrLocalOK el "href" = true) ∧
      (el.tag = "script" → attrLocalOK el "src" = true) ∧
      (el.tag = "img" → attrLocalOK el "src" = true)) :
    rewrite_html_to_local base cacheRoot doc = doc := by
  have hmap : doc.map (rewriteEl base cacheRoot) = doc := by
    have hid : ∀ el ∈ doc, rewriteEl base cacheRoot el = el := fun el hel =>
      rewriteEl_eq_self base cacheRoot el hb (hdoc el hel).1
        (hdoc el hel).2.1 (hdoc el hel).2.2.1 (hdoc el hel).2.2.2
    calc doc.map (rewriteEl base cacheRoot) = doc.map id :=
          List.map_congr_left hid
      _ = doc := doc.map_id
  unfold rewrite_html_to_local
  rw [hmap]
  show (if doc.any (fun el => el.tag == "base") = true then doc
    else baseEl :: doc) = doc
  rw [if_pos hbase]

/-- Witness for `c6_rewrite_fixpoint` at a concrete rewritten document. -/
theorem c6_rewrite_fixpoint_witness :
    baseOK "http://h.com/" = true ∧
      rewrite_html_to_local "http://h.com/" ["c"]
        [⟨"base", [("href", "/")], none⟩,
         ⟨"img", [("src", "/x.png")], none⟩] =
        [⟨"base", [("href", "/")], none⟩,
         ⟨"img", [("src", "/x.png")], none⟩] :=
  ⟨by decide,
    c6_rewrite_fixpoint "http://h.com/" ["c"]
      [⟨"base", [("href", "/")], none⟩, ⟨"img", [("src", "/x.png")], none⟩]
      (by decide) (by decide) (by decide)⟩

set_option maxHeartbeats 1600000 in
/-- Claim C5: fail-soft downloads.  (1) When fetching an asset URL raises
(network error or bad status, modelled as `net url = none`),
`download_file` returns `false` and the whole cache — in particular any
existing copy at the destination — is untouched.  (2) A cycle whose
primary fetch succeeds always produces a `SnapshotResult`, never an
exception, whatever the asset failures.  (3) Any other first-pass asset
whose fetch succeeds is present in the final cache with the fetched
bytes, provided no other processed URL collides with its mapped path and
the path is not `index.html`. -/
theorem c5_fail_soft (net : Net) (doc : List HtmlEl) (cacheRoot : LPath)
    (target : String) (extra : List String) (fs : FS) (url : String)
    (dest : LPath) (s : String) :
    (net url = none → download_file net url dest fs = (false, fs)) ∧
      (fetch_snapshot net (some doc) cacheRoot target extra fs).isSome =
        true ∧
      (url ∈ sortedSet (extractAssetList target doc
          ++ extra.map (fun rel => urljoin target rel)) →
        ¬endsWithHtml url = true →
        net url = some s →
        (∀ v ∈ sortedSet (extractAssetList target doc
            ++ extra.map (fun rel => urljoin target rel)),
          ¬endsWithHtml v = true →
          safe_path_for_url v cacheRoot = safe_path_for_url url cacheRoot →
          v = url) →
        (∀ v ∈ sortedSet (pass1 net cacheRoot
            (sortedSet (extractAssetList target doc
              ++ extra.map (fun rel => urljoin target rel))) fs).2.2,
          safe_path_for_url v cacheRoot ≠ safe_path_for_url url cacheRoot) →
        safe_path_for_url url cacheRoot ≠ cacheRoot ++ ["index.html"] →
        ∀ r fs', fetch_snapshot net (some doc) cacheRoot target extra fs =
          some (r, fs') →
        fsRead fs' (safe_path_for_url url cacheRoot) = some s) := by
  refine ⟨?_, ?_, ?_⟩
  · intro hn
    unfold download_file
    rw [hn]
  · rw [fetch_snapshot_run_eq net doc cacheRoot target extra fs]
    rfl
  · intro hmem hhtml hn hinj hp2 hidx r fs' hrun
    rw [fetch_snapshot_run_eq net doc cacheRoot target extra fs,
      Option.some.injEq, Prod.mk.injEq] at hrun
    obtain ⟨-, hfs'⟩ := hrun
    rw [← hfs']
    have hafter1 : fsRead (pass1 net cacheRoot
        (sortedSet (extractAssetList target doc
          ++ extra.map (fun rel => urljoin target rel))) fs).2.1
        (safe_path_for_url url cacheRoot) = some s :=
      pass1_member net cacheRoot _ url s fs hmem hhtml hn hinj
    have hafter2 : fsRead (pass2 net cacheRoot
        (sortedSet (pass1 net cacheRoot
          (sortedSet (extractAssetList target doc
            ++ extra.map (fun rel => urljoin target rel))) fs).2.2)
        (pass1 net cacheRoot (sortedSet (extractAssetList target doc
          ++ extra.map (fun rel => urljoin target rel))) fs).2.1).2
        (safe_path_for_url url cacheRoot) = some s := by
      rw [pass2_read_other net cacheRoot _ _ _ hp2]
      exact hafter1
    by_cases hcond : fsRead fs (cacheRoot ++ ["index.html"]) ≠
        some (serializeDoc (rewrite_html_to_local target cacheRoot doc))
    · rw [if_pos hcond]
      rw [show ((true, fsWrite (pass2 net cacheRoot
          (sortedSet (pass1 net cacheRoot
            (sortedSet (extractAssetList target doc
              ++ extra.map (fun rel => urljoin target rel))) fs).2.2)
          (pass1 net cacheRoot (sortedSet (extractAssetList target doc
            ++ extra.map (fun rel => urljoin target rel))) fs).2.1).2
          (cacheRoot ++ ["index.html"])
          (serializeDoc (rewrite_html_to_local target cacheRoot doc))) :
          Bool × FS).2 = fsWrite (pass2 net cacheRoot
          (sortedSet (pass1 net cacheRoot
            (sortedSet (extractAssetList target doc
              ++ extra.map (fun rel => urljoin target rel))) fs).2.2)
          (pass1 net cacheRoot (sortedSet (extractAssetList target doc
            ++ extra.map (fun rel => urljoin target rel))) fs).2.1).2
          (cacheRoot ++ ["index.html"])
          (serializeDoc (rewrite_html_to_local target cacheRoot doc))
        from rfl]
      rw [fsRead_fsWrite_other _ _ _ _ hidx]
      exact hafter2
    · rw [if_neg hcond]
      exact hafter2

/-- Witness for `c5_fail_soft`: one asset 404s (`a.png`), another succeeds
(`b.png`); the cycle returns a result and the successful asset is in the
final cache. -/
theorem c5_fail_soft_witness :
    fsRead
      [(["c", "index.html"],
        "<base href=\"/\"></base><img src=\"/a.png\"></img><img src=\"/b.png\"></img>"),
       (["c", "b.png"], "B")]
      (safe_path_for_url "http://h/b.png" ["c"]) = some "B" :=
  (c5_fail_soft (fun u => if u = "http://h/b.png" then some "B" else none)
    [⟨"img", [("src", "a.png")], none⟩, ⟨"img", [("src", "b.png")], none⟩]
    ["c"] "http://h/" [] [] "http://h/b.png" ["c", "b.png"] "B").2.2
    (by decide) (by decide) (by decide) (by decide) (by decide) (by decide)
    (SnapshotResult.mk true (["c"] ++ ["index.html"]))
    [(["c", "index.html"],
      "<base href=\"/\"></base><img src=\"/a.png\"></img><img src=\"/b.png\"></img>"),
     (["c", "b.png"], "B")]
    (by decide)

/-- Witness for `c10_html_data_uri_included` on a one-image document. -/
theorem c10_html_data_uri_included_witness :
    "data:image/png;base64,AA" ∈ extract_asset_urls "http://h/"
      [⟨"img", [("src", "data:image/png;base64,AA")], none⟩] :=
  c10_html_data_uri_included "http://h/"
    [⟨"img", [("src", "data:image/png;base64,AA")], none⟩]
    ⟨"img", [("src", "data:image/png;base64,AA")], none⟩
    "data:image/png;base64,AA" (by decide)
    (Or.inr (Or.inr ⟨rfl, by decide⟩)) (by decide)

end Viewer
